import Mathlib

set_option maxRecDepth 100000

/-!
Shallow embedding of the Vigenère cryptanalysis backend
(`src/utils/vigenereLogic.js` and `src/workers/vigenereWorker.js`).

Modelling conventions:
* JS strings are `List Char`; JS numbers are `ℚ` (all arithmetic in the
  source is exact enough that ℚ mirrors it: sums, products and divisions
  of decimal constants), counters and indices are `ℕ`.
* JS `Array.prototype.sort(cmp)` is stable (ECMAScript 2019); a stable
  sort for a total preorder has a unique result, so we embed it as a
  structurally recursive stable insertion sort `stableSort`.
* `Math.random()` draws are modelled by an explicit stream of naturals
  (`Rng`); `Math.floor(Math.random() * n)` is a draw in `[0, n)`.
* JS objects used as string-keyed maps become association lists; a field
  that is sometimes absent becomes an `Option`.
-/

namespace Vigenere

/-- ASCII uppercase letter test, `code >= 65 && code <= 90` in the source. -/
def isUpperLetter (c : Char) : Bool := 65 ≤ c.toNat && c.toNat ≤ 90

/-- ASCII lowercase letter test, `code >= 97 && code <= 122` in the source. -/
def isLowerLetter (c : Char) : Bool := 97 ≤ c.toNat && c.toNat ≤ 122

/-- The `/[a-z]/i` letter test used throughout the source. -/
def isAsciiLetter (c : Char) : Bool := isUpperLetter c || isLowerLetter c

/-- Embedding: `String.prototype.toUpperCase` restricted to the ASCII range the
source ever exercises (all regexes in the source are `[a-z]`/`[A-Z]`). -/
def jsToUpper (c : Char) : Char :=
  if isLowerLetter c then Char.ofNat (c.toNat - 32) else c

/-- Embedding: `String.prototype.toLowerCase` restricted to ASCII. -/
def jsToLower (c : Char) : Char :=
  if isUpperLetter c then Char.ofNat (c.toNat + 32) else c

/-- Embedding: `text.toUpperCase().replace(/[^A-Z]/g, "")` — the cleaning step used by
`calculateIC` and by the worker's `cryptanalysisCrack` guard. -/
def cleanUpper (text : List Char) : List Char :=
  (text.map jsToUpper).filter isUpperLetter

/-- Insert `a` after every element `b` with `le b a`; together with
`stableSort` this is the unique stable sort for the total preorder
induced by a JS numeric comparator. -/
def stableInsert (le : α → α → Bool) (a : α) : List α → List α
  | [] => [a]
  | b :: l => if le b a then b :: stableInsert le a l else a :: b :: l

/-- Stable sort (models `Array.prototype.sort` with a numeric comparator;
elements are inserted in original order, each after its ties). -/
def stableSort (le : α → α → Bool) (l : List α) : List α :=
  l.foldl (fun acc a => stableInsert le a acc) []

/-- The `ENGLISH_FREQUENCIES` table, in source (insertion) order.
The decimal literals are exact in `ℚ`. -/
def ENGLISH_FREQUENCIES : List (Char × ℚ) :=
  [('E', 0.1202), ('T', 0.091), ('A', 0.0812), ('O', 0.0768), ('I', 0.0731),
   ('N', 0.0695), ('S', 0.0628), ('R', 0.0602), ('H', 0.0592), ('D', 0.0432),
   ('L', 0.0398), ('U', 0.0288), ('C', 0.0271), ('M', 0.0261), ('F', 0.023),
   ('Y', 0.0211), ('W', 0.0209), ('G', 0.0203), ('P', 0.0182), ('B', 0.0149),
   ('V', 0.0111), ('K', 0.0069), ('X', 0.0017), ('Q', 0.0011), ('J', 0.001),
   ('Z', 0.0007)]

/-- Embedding: `ENGLISH_FREQUENCIES[letter] || 0`. -/
def englishFreq (c : Char) : ℚ := (ENGLISH_FREQUENCIES.lookup c).getD 0

/-- Embedding: `getFrequencies`: per-letter fraction of the letters of the uppercased
text.  The JS function returns an object keyed by the letters that occur;
every consumer reads it as `frequencies[letter] || 0`, which this total
function models (0 for an absent key, and `x / 0 = 0` in `ℚ` covers the
letterless text, whose JS table is empty). -/
def getFrequencies (text : List Char) : Char → ℚ :=
  fun c =>
    let up := text.map jsToUpper
    let total := (up.filter isUpperLetter).length
    if isUpperLetter c then (up.count c : ℚ) / (total : ℚ) else 0

/-- Embedding: `calculateChiSquared`: `Σ_{i<26} (observed − expected)² / expected`,
skipping letters with `expected ≤ 0` (none, in fact). -/
def calculateChiSquared (frequencies : Char → ℚ) : ℚ :=
  ((List.range 26).map (fun i =>
    let letter := Char.ofNat (65 + i)
    let observed := frequencies letter
    let expected := englishFreq letter
    if 0 < expected then (observed - expected) ^ 2 / expected else 0)).sum

/-- Embedding: `calculateIC`: Index of Coincidence of the cleaned text.  The JS
frequency object iterates over the distinct letters present, modelled by
`List.dedup`. -/
def calculateIC (text : List Char) : ℚ :=
  let cleanText := cleanUpper text
  let length := cleanText.length
  let sum :=
    ((cleanText.dedup).map
      (fun c => cleanText.count c * (cleanText.count c - 1))).sum
  if length ≤ 1 then 0 else (sum : ℚ) / ((length : ℚ) * ((length : ℚ) - 1))

/-- Embedding: `getSequences`: distribute the letters (only) of `text` round-robin
over `keyLength` subsequences; the `j`-th letter goes to sequence
`j % keyLength`, preserving order. -/
def getSequences (text : List Char) (keyLength : ℕ) : List (List Char) :=
  let letters := text.filter isAsciiLetter
  (List.range keyLength).map (fun p =>
    ((letters.enum).filter (fun x => x.1 % keyLength = p)).map (fun x => x.2))

/-- One character of the trial Caesar decryption inside `findBestShifts`
(case-preserving, non-letters passed through).  The `+ 26` keeps the JS
remainder nonnegative, so it coincides with `Int.emod`. -/
def caesarShiftChar (shift : ℕ) (c : Char) : Char :=
  let code := c.toNat
  if 65 ≤ code ∧ code ≤ 90 then
    Char.ofNat ((((code : ℤ) - 65 - shift + 26) % 26).toNat + 65)
  else if 97 ≤ code ∧ code ≤ 122 then
    Char.ofNat ((((code : ℤ) - 97 - shift + 26) % 26).toNat + 97)
  else c

/-- The `distributionScore` accumulated over the `ENGLISH_FREQUENCIES`
keys; `if (frequencies[letter])` skips zero (falsy) observed values. -/
def distributionScore (frequencies : Char → ℚ) : ℚ :=
  (ENGLISH_FREQUENCIES.map (fun p =>
    if frequencies p.1 ≠ 0 then frequencies p.1 * p.2 * 100 else 0)).sum

/-- Embedding: `findBestShifts`: score all 26 shifts by
`chiSquared − distributionScore * 0.5`, sort ascending (stably) and keep
the first `numOptions` shifts.  The source's default `numOptions = 8` is
passed explicitly by callers here. -/
def findBestShifts (sequence : List Char) (numOptions : ℕ) : List ℕ :=
  let results := (List.range 26).map (fun shift =>
    let decrypted := sequence.map (caesarShiftChar shift)
    let frequencies := getFrequencies decrypted
    let chiSquared := calculateChiSquared frequencies
    let distScore := distributionScore frequencies
    (shift, chiSquared - distScore * 0.5))
  let sorted := stableSort (fun a b => decide (a.2 ≤ b.2)) results
  (sorted.take numOptions).map (fun r => r.1)

/-- Embedding: `shiftsToKey` — shift `s` becomes the letter with code `s + 65`. -/
def shiftsToKey (shifts : List ℕ) : List Char :=
  shifts.map (fun shift => Char.ofNat (shift + 65))

/-- One letter of `decryptWithKey`: `isUpperCase` is
`char === char.toUpperCase()`, the codes are taken mod 26 over `ℤ`
(mirroring `(charCode - keyCode + 26) % 26`, whose JS remainder is the
nonnegative `Int.emod` here), and the case is restored at the end. -/
def decryptChar (keyChar : Char) (c : Char) : Char :=
  let isUpperCase := jsToUpper c == c
  let charCode : ℤ := (jsToUpper c).toNat - 65
  let keyCode : ℤ := keyChar.toNat - 65
  let decryptedCode := (charCode - keyCode + 26) % 26
  let decryptedChar := Char.ofNat (decryptedCode.toNat + 65)
  if isUpperCase then decryptedChar else jsToLower decryptedChar

/-- The character loop of `decryptWithKey`: `keyIndex` advances only on
letters; non-letters are copied through. -/
def decryptGo (upperKey : List Char) : List Char → ℕ → List Char
  | [], _ => []
  | c :: rest, keyIndex =>
    if isAsciiLetter c then
      decryptChar (upperKey.getD (keyIndex % upperKey.length) 'A') c
        :: decryptGo upperKey rest (keyIndex + 1)
    else c :: decryptGo upperKey rest keyIndex

/-- Embedding: `decryptWithKey(text, key)`.  `none` models a `null`/`undefined` key
and `some []` the empty string: both are falsy, so `if (!key) return text`
fires.  Otherwise the key is uppercased and the loop runs from
`keyIndex = 0`. -/
def decryptWithKey (text : List Char) (key : Option (List Char)) : List Char :=
  match key with
  | none => text
  | some k => if k.isEmpty then text else decryptGo (k.map jsToUpper) text 0

/-- Modelled from the spec: the repository has no encryption routine
(§8 only defines it as "the inverse shift of decryption": encryption
shifts each letter forward by `key[i % key.length]`, counting letters
only, preserving case, passing non-letters through).  This mirrors
`decryptChar` with `+ keyCode` in place of `- keyCode`. -/
def encryptChar (keyChar : Char) (c : Char) : Char :=
  let isUpperCase := jsToUpper c == c
  let charCode : ℤ := (jsToUpper c).toNat - 65
  let keyCode : ℤ := keyChar.toNat - 65
  let encryptedCode := (charCode + keyCode) % 26
  let encryptedChar := Char.ofNat (encryptedCode.toNat + 65)
  if isUpperCase then encryptedChar else jsToLower encryptedChar

/-- Modelled from the spec: the letter loop of Vigenère encryption,
advancing the key index on letters only. -/
def encryptGo (upperKey : List Char) : List Char → ℕ → List Char
  | [], _ => []
  | c :: rest, keyIndex =>
    if isAsciiLetter c then
      encryptChar (upperKey.getD (keyIndex % upperKey.length) 'A') c
        :: encryptGo upperKey rest (keyIndex + 1)
    else c :: encryptGo upperKey rest keyIndex

/-- Modelled from the spec: `encryptVigenere(P, K)`, the inverse of
`decryptWithKey` (§8 round-trip property). -/
def encryptVigenere (text : List Char) (key : List Char) : List Char :=
  if key.isEmpty then text else encryptGo (key.map jsToUpper) text 0

/-- A dictionary: lowercase word → weight (a JS object, here an
association list; lookups of absent words give `none`). -/
abbrev Dict := List (List Char × ℚ)

/-- Embedding: `text.toLowerCase().split(/[^a-z]+/).filter(w => w.length > 0)`:
the maximal runs of lowercase letters of the lowercased text. -/
def splitWordsGo : List Char → List Char → List (List Char)
  | [], acc => if acc.isEmpty then [] else [acc.reverse]
  | c :: rest, acc =>
    if isLowerLetter c then splitWordsGo rest (c :: acc)
    else if acc.isEmpty then splitWordsGo rest []
    else acc.reverse :: splitWordsGo rest []

/-- Tokenization used by `countRecognizedWords` (see `splitWordsGo`). -/
def splitWords (text : List Char) : List (List Char) :=
  splitWordsGo text []

/-- The `WordStats` record `{count, total, percentage, weightedScore}`. -/
structure WordStats where
  count : ℕ
  total : ℕ
  percentage : ℚ
  weightedScore : ℚ
  deriving DecidableEq, Repr

/-- Embedding: `countRecognizedWords(text, dictionary)`.  Words of length ≥ 2 are
looked up; `if (wordWeight)` skips an absent word and a weight of `0`
(falsy).  Both denominators are `words.length`, the number of *all*
nonempty tokens. -/
def countRecognizedWords (text : List Char) (dictionary : Dict) : WordStats :=
  let words := splitWords (text.map jsToLower)
  let acc := words.foldl (fun acc word =>
    if 2 ≤ word.length then
      match dictionary.lookup word with
      | some wordWeight =>
          if wordWeight == 0 then acc else (acc.1 + 1, acc.2 + wordWeight)
      | none => acc
    else acc) ((0 : ℕ), (0 : ℚ))
  let percentage :=
    if 0 < words.length then ((acc.1 : ℚ) / (words.length : ℚ)) * 100 else 0
  let weightedScore :=
    if 0 < words.length then acc.2 / (words.length : ℚ) else 0
  ⟨acc.1, words.length, percentage, weightedScore⟩

/-- Whether a token is recognized: present in the dictionary with a
truthy (nonzero) weight. -/
def isRecognized (dictionary : Dict) (word : List Char) : Bool :=
  match dictionary.lookup word with
  | some w => w != 0
  | none => false

/-- Weight of a recognized token (0 when absent). -/
def weightOf (dictionary : Dict) (word : List Char) : ℚ :=
  (dictionary.lookup word).getD 0

/-- The word recognizer as claim C5 words it: tokens shorter than 2 are
*discarded*, and both denominators range over the remaining tokens. -/
def countRecognizedWordsSpec (text : List Char) (dictionary : Dict) :
    WordStats :=
  let tokens := splitWords (text.map jsToLower)
  let kept := tokens.filter (fun w => 2 ≤ w.length)
  let recognized := kept.filter (fun w => isRecognized dictionary w)
  let totalWeight := (recognized.map (fun w => weightOf dictionary w)).sum
  let percentage :=
    if 0 < kept.length then ((recognized.length : ℚ) / (kept.length : ℚ)) * 100
    else 0
  let weightedScore :=
    if 0 < kept.length then totalWeight / (kept.length : ℚ) else 0
  ⟨recognized.length, kept.length, percentage, weightedScore⟩

/-- The word recognizer as the code actually behaves (claim C5 amended):
short tokens are never *recognized* but still count in both denominators,
which range over all nonempty tokens. -/
def countRecognizedWordsAmended (text : List Char) (dictionary : Dict) :
    WordStats :=
  let tokens := splitWords (text.map jsToLower)
  let recognized :=
    tokens.filter (fun w => 2 ≤ w.length && isRecognized dictionary w)
  let totalWeight := (recognized.map (fun w => weightOf dictionary w)).sum
  let percentage :=
    if 0 < tokens.length then
      ((recognized.length : ℚ) / (tokens.length : ℚ)) * 100
    else 0
  let weightedScore :=
    if 0 < tokens.length then totalWeight / (tokens.length : ℚ) else 0
  ⟨recognized.length, tokens.length, percentage, weightedScore⟩

/-- Embedding: `generateKeys(shiftOptions)`: bounded Cartesian product of the
per-position shift options.  The source indexes `shiftOptions[0]`
unconditionally (a JS `TypeError` on `[]`, modelled as `[]`); from
position 1 on, each expansion is truncated to 5000 combinations *after*
it is built. -/
def generateKeys (shiftOptions : List (List ℕ)) : List (List Char) :=
  match shiftOptions with
  | [] => []
  | first :: rest =>
    let combinations := rest.foldl (fun combos opts =>
      let newCombinations :=
        combos.flatMap (fun combo => opts.map (fun shift => combo ++ [shift]))
      if 5000 < newCombinations.length then newCombinations.take 5000
      else newCombinations) (first.map (fun shift => [shift]))
    combinations.map shiftsToKey

/-- The record returned by `rateKeyQuality`. -/
structure RatedKey where
  key : List Char
  decrypted : List Char
  wordStats : WordStats
  chiSquared : ℚ
  compositeScore : ℚ
  deriving DecidableEq, Repr

/-- Embedding: `rateKeyQuality(key, ciphertext, dictionary)`: decrypt, collect word
stats and chi-squared, and combine them with the fixed weights
`0.7 / 15 / 0.2`. -/
def rateKeyQuality (key : List Char) (ciphertext : List Char)
    (dictionary : Dict) : RatedKey :=
  let decrypted := decryptWithKey ciphertext (some key)
  let wordStats := countRecognizedWords decrypted dictionary
  let frequencies := getFrequencies decrypted
  let chiSquared := calculateChiSquared frequencies
  let compositeScore :=
    wordStats.percentage * 0.7 + wordStats.weightedScore * 15
      - chiSquared * 0.2
  ⟨key, decrypted, wordStats, chiSquared, compositeScore⟩

/-- A stream of random draws with a cursor.  `Math.floor(Math.random()*n)`
is any value in `[0, n)`; modelling the draw as `seq idx % n` makes every
such value reachable and nothing else, so properties quantified over all
`Rng`s cover every sequence of JS random draws. -/
structure Rng where
  seq : ℕ → ℕ
  idx : ℕ

/-- One draw in `[0, n)` (for `n ≥ 1`), advancing the cursor. -/
def Rng.draw (g : Rng) (n : ℕ) : ℕ × Rng :=
  (g.seq g.idx % n, ⟨g.seq, g.idx + 1⟩)

/-- Swap the entries at positions `i` and `j` (used by the shuffle). -/
def listSwap (l : List α) (i j : ℕ) : List α :=
  match l.get? i, l.get? j with
  | some a, some b => (l.set i b).set j a
  | _, _ => l

/-- The Fisher–Yates shuffle of `refineKey`:
`for i from hi down to 1: j := draw in [0, i+1); swap i j`.
`fisherYates hi l g` runs the indices `hi, hi-1, …, 1`. -/
def fisherYates : ℕ → List ℕ → Rng → List ℕ × Rng
  | 0, l, g => (l, g)
  | i + 1, l, g =>
    let p := g.draw (i + 2)
    fisherYates i (listSwap l (i + 1) p.1) p.2

/-- The mutable loop state of `refineKey`. -/
structure RefineState where
  bestKey : List Char
  bestDecrypted : List Char
  bestWordStats : WordStats
  bestScore : ℚ
  iterations : ℕ
  improved : Bool
  lastImprovedIteration : ℕ
  rng : Rng

/-- Install a strictly better candidate key into the state (the common
update of all three improvement branches of `refineKey`). -/
def acceptImprovement (s : RefineState) (newKey : List Char)
    (decrypted : List Char) (wordStats : WordStats) : RefineState :=
  { s with
    bestKey := newKey
    bestScore := wordStats.percentage
    bestDecrypted := decrypted
    bestWordStats := wordStats
    improved := true
    lastImprovedIteration := s.iterations }

/-- The inner `for (const shift of shiftOrder)` loop at one key position:
skip the current letter, substitute each remaining shift, and accept the
first strict improvement of the recognition percentage (`none` when no
shift improves). -/
def tryShiftList (ciphertext : List Char) (dictionary : Dict)
    (s : RefineState) (pos : ℕ) : List ℕ → Option RefineState
  | [] => none
  | shift :: rest =>
    if (s.bestKey.getD pos 'A').toNat - 65 = shift then
      tryShiftList ciphertext dictionary s pos rest
    else
      let newKey := s.bestKey.set pos (Char.ofNat (65 + shift))
      let decrypted := decryptWithKey ciphertext (some newKey)
      let wordStats := countRecognizedWords decrypted dictionary
      if s.bestScore < wordStats.percentage then
        some (acceptImprovement s newKey decrypted wordStats)
      else tryShiftList ciphertext dictionary s pos rest

/-- Swap the adjacent letters at `pos` and `pos + 1` of the key
(`substring(0,pos) + charAt(pos+1) + charAt(pos) + substring(pos+2)`). -/
def swapAdjacent (key : List Char) (pos : ℕ) : List Char :=
  listSwap key pos (pos + 1)

/-- The body of one step of the `for (let pos = 0; …)` loop of a
refinement iteration at position `pos`: shuffle the 26 shifts, try
single-letter changes, and — when stagnating and not at the last
position — an adjacent swap.  Returns the updated state and the
`foundBetter` flag for this position. -/
def positionStep (ciphertext : List Char) (dictionary : Dict)
    (stagnating : Bool) (pos : ℕ) (s : RefineState) : RefineState × Bool :=
  let fy := fisherYates 25 (List.range 26) s.rng
  let s1 := { s with rng := fy.2 }
  match tryShiftList ciphertext dictionary s1 pos fy.1 with
  | some s2 => (s2, true)
  | none =>
    if stagnating ∧ pos + 1 < s1.bestKey.length then
      let swappedKey := swapAdjacent s1.bestKey pos
      let decrypted := decryptWithKey ciphertext (some swappedKey)
      let wordStats := countRecognizedWords decrypted dictionary
      if s1.bestScore < wordStats.percentage then
        (acceptImprovement s1 swappedKey decrypted wordStats, true)
      else (s1, false)
    else (s1, false)

/-- The `for (let pos = 0; …)` loop of one refinement iteration: run
`positionStep` per position; an improvement (`foundBetter`) breaks out
immediately, otherwise the loop continues on the updated state (whose
random stream has advanced). -/
def positionLoop (ciphertext : List Char) (dictionary : Dict)
    (stagnating : Bool) : List ℕ → RefineState → RefineState × Bool
  | [], s => (s, false)
  | pos :: restPos, s =>
    let r := positionStep ciphertext dictionary stagnating pos s
    if r.2 then r
    else positionLoop ciphertext dictionary stagnating restPos r.1

/-- The random-mutation fallback: `changeCount` single-letter random
substitutions (a position draw in `[0, len)` and a shift draw in
`[0, 26)` each). -/
def randomMutate : ℕ → List Char → Rng → List Char × Rng
  | 0, key, g => (key, g)
  | n + 1, key, g =>
    let p1 := g.draw key.length
    let p2 := p1.2.draw 26
    randomMutate n (key.set p1.1 (Char.ofNat (65 + p2.1))) p2.2

/-- One iteration of the `refineKey` while loop: bump the counter,
compute `stagnating`, run the position loop, and — if nothing improved —
test one randomly mutated key. -/
def refineBody (ciphertext : List Char) (dictionary : Dict)
    (s : RefineState) : RefineState :=
  let s0 := { s with iterations := s.iterations + 1 }
  let stagnating := decide (5 < s0.iterations - s0.lastImprovedIteration)
  let r := positionLoop ciphertext dictionary stagnating
    (List.range s0.bestKey.length) s0
  let s1 := r.1
  if r.2 then s1
  else
    let changeCount :=
      min ((s1.iterations - s1.lastImprovedIteration) / 3 + 1)
        (s1.bestKey.length / 2)
    let m := randomMutate changeCount s1.bestKey s1.rng
    let s2 := { s1 with rng := m.2 }
    let decrypted := decryptWithKey ciphertext (some m.1)
    let wordStats := countRecognizedWords decrypted dictionary
    if s2.bestScore < wordStats.percentage then
      acceptImprovement s2 m.1 decrypted wordStats
    else s2

/-- The continuation condition of the `refineKey` while loop:
`(bestScore < target && iterations < maxIters) ||
 (iterations < maxIters && iterations - lastImprovedIteration < 10)`. -/
def refineCond (targetPercentage : ℚ) (maxIters : ℕ)
    (s : RefineState) : Bool :=
  (decide (s.bestScore < targetPercentage) && decide (s.iterations < maxIters))
    || (decide (s.iterations < maxIters)
        && decide (s.iterations - s.lastImprovedIteration < 10))

/-- The while loop of `refineKey`, with the end-of-body early exit
`if (bestScore >= targetPercentage) break`.  The fuel only has to cover
`maxIters` steps: the condition forces `iterations < maxIters` and every
iteration increments `iterations`. -/
def refineLoop (ciphertext : List Char) (dictionary : Dict)
    (targetPercentage : ℚ) (maxIters : ℕ) :
    ℕ → RefineState → RefineState
  | 0, s => s
  | fuel + 1, s =>
    if refineCond targetPercentage maxIters s then
      let s1 := refineBody ciphertext dictionary s
      if targetPercentage ≤ s1.bestScore then s1
      else refineLoop ciphertext dictionary targetPercentage maxIters fuel s1
    else s

/-- The record returned by `refineKey`. -/
structure RefineResult where
  finalKey : List Char
  improved : Bool
  iterations : ℕ
  wordStats : WordStats
  decrypted : List Char
  deriving Repr

/-- Embedding: `refineKey(initialKey, ciphertext, dictionary, targetPercentage,
maxIters)` with an explicit random stream. -/
def refineKey (initialKey : List Char) (ciphertext : List Char)
    (dictionary : Dict) (targetPercentage : ℚ) (maxIters : ℕ)
    (g : Rng) : RefineResult :=
  let bestDecrypted := decryptWithKey ciphertext (some initialKey)
  let bestWordStats := countRecognizedWords bestDecrypted dictionary
  let s : RefineState :=
    ⟨initialKey, bestDecrypted, bestWordStats, bestWordStats.percentage,
      0, false, 0, g⟩
  let sf := refineLoop ciphertext dictionary targetPercentage maxIters
    maxIters s
  ⟨sf.bestKey, sf.improved, sf.iterations, sf.bestWordStats,
    sf.bestDecrypted⟩

/-- An entry of a strategy's `topResults`.  `chiSquared`, `improved` and
`iterations` are `Option`s because the JS records carry them only on some
entries (the refined brute-force entry has *no* `chiSquared` field). -/
structure Candidate where
  key : List Char
  keyLength : ℕ
  wordStats : WordStats
  chiSquared : Option ℚ
  compositeScore : ℚ
  improved : Option Bool
  iterations : Option ℕ
  preview : List Char
  deriving DecidableEq, Repr

instance : Inhabited Candidate :=
  ⟨⟨[], 0, ⟨0, 0, 0, 0⟩, none, 0, none, none, []⟩⟩

/-- A strategy result `{topResults, fullDecryption?, method, message?}`. -/
structure CrackResult where
  topResults : List Candidate
  fullDecryption : Option (List Char)
  method : String
  message : Option String
  deriving DecidableEq, Repr

/-- The candidate record `bruteForceCrack` builds for one known key:
decrypt, collect word stats and chi-squared, and apply the composite
formula (with the chi term). -/
def bruteForceCandidate (ciphertext : List Char) (dictionary : Dict)
    (key : List Char) : Candidate :=
  let decrypted := decryptWithKey ciphertext (some key)
  let wordStats := countRecognizedWords decrypted dictionary
  let frequencies := getFrequencies decrypted
  let chiSquared := calculateChiSquared frequencies
  let compositeScore :=
    wordStats.percentage * 0.7 + wordStats.weightedScore * 15
      - chiSquared * 0.2
  { key := key, keyLength := key.length, wordStats := wordStats,
    chiSquared := some chiSquared, compositeScore := compositeScore,
    improved := none, iterations := none,
    preview := decrypted.take 100 }

/-- The top-5 list of `bruteForceCrack`: all known keys rated, sorted
descending by composite score (stably), first five kept. -/
def bruteForceTop (ciphertext : List Char) (keys : List (List Char))
    (dictionary : Dict) : List Candidate :=
  (stableSort (fun a b => decide (b.compositeScore ≤ a.compositeScore))
    (keys.map (bruteForceCandidate ciphertext dictionary))).take 5

/-- The candidate record `bruteForceCrack` prepends after a successful
refinement.  Its `compositeScore` has NO chi-squared term and the record
carries no `chiSquared` field. -/
def refinedBruteForceCandidate (refinementResult : RefineResult)
    (refinedDecryption : List Char) : Candidate :=
  { key := refinementResult.finalKey
    keyLength := refinementResult.finalKey.length
    wordStats := refinementResult.wordStats
    chiSquared := none
    compositeScore :=
      refinementResult.wordStats.percentage * 0.7
        + refinementResult.wordStats.weightedScore * 15
    improved := some true
    iterations := some refinementResult.iterations
    preview := refinedDecryption.take 100 }

/-- Embedding: `bruteForceCrack(ciphertext, keys, dictionary, targetRecognition,
maxIterations)`: rate every known key with the composite formula, sort
descending, keep the top 5, and — when the best is below target — refine
it; a strict improvement is prepended *without* a chi-squared term in its
composite score. -/
def bruteForceCrack (ciphertext : List Char) (keys : List (List Char))
    (dictionary : Dict) (targetRecognition : ℚ) (maxIterations : ℕ)
    (g : Rng) : CrackResult :=
  let topResults := bruteForceTop ciphertext keys dictionary
  let fullDecryption := match topResults.head? with
    | some top => decryptWithKey ciphertext (some top.key)
    | none => []
  match topResults with
  | [] => ⟨topResults, some fullDecryption, "brute-force", none⟩
  | top :: _ =>
    if top.wordStats.percentage < targetRecognition then
      let refinementResult := refineKey top.key ciphertext dictionary
        targetRecognition maxIterations g
      if refinementResult.improved
          ∧ top.wordStats.percentage
            < refinementResult.wordStats.percentage then
        let refinedDecryption :=
          decryptWithKey ciphertext (some refinementResult.finalKey)
        ⟨refinedBruteForceCandidate refinementResult refinedDecryption
            :: topResults,
          some refinedDecryption, "brute-force-with-refinement", none⟩
      else ⟨topResults, some fullDecryption, "brute-force", none⟩
    else ⟨topResults, some fullDecryption, "brute-force", none⟩

/-- The per-key-length candidate search of `cryptanalysisCrack` (steps
2–5): split into sequences, take the top 3 shifts per position, expand to
keys, rate them all, and sort descending by composite score. -/
def keyResultsFor (ciphertext : List Char) (dictionary : Dict)
    (keyLength : ℕ) : List RatedKey :=
  let sequences := getSequences ciphertext keyLength
  let shiftOptions := sequences.map (fun seq => findBestShifts seq 3)
  let potentialKeys := generateKeys shiftOptions
  let keyResults := potentialKeys.map
    (fun key => rateKeyQuality key ciphertext dictionary)
  stableSort (fun a b => decide (b.compositeScore ≤ a.compositeScore))
    keyResults

/-- The `bestResult` accumulation over the likely key lengths:
`if (!bestResult || best.compositeScore > bestResult.compositeScore)`. -/
def pickBest (ciphertext : List Char) (dictionary : Dict)
    (likelyKeyLengths : List ℕ) : Option RatedKey :=
  likelyKeyLengths.foldl (fun bestResult keyLength =>
    match keyResultsFor ciphertext dictionary keyLength with
    | [] => bestResult
    | bestKeyForLength :: _ =>
      match bestResult with
      | none => some bestKeyForLength
      | some b =>
        if b.compositeScore < bestKeyForLength.compositeScore then
          some bestKeyForLength
        else some b) none

/-- The ranked key lengths of step 1: average IC per candidate length,
sorted descending (stably), first three kept. -/
def likelyKeyLengths (ciphertext : List Char) (maxKeyLength : ℕ) :
    List ℕ :=
  let keyLengthScores := (List.range' 1 maxKeyLength).map (fun length =>
    let sequences := getSequences ciphertext length
    let totalIC := (sequences.map calculateIC).sum
    (length, totalIC / (sequences.length : ℚ)))
  let sorted := stableSort (fun a b => decide (b.2 ≤ a.2)) keyLengthScores
  (sorted.take 3).map (fun item => item.1)

/-- Embedding: `cryptanalysisCrack(ciphertext, maxKeyLength, dictionary,
targetRecognition, maxIterations)`: the thrown
`Error("Ciphertext too short for reliable analysis")` becomes
`Except.error`; otherwise the best candidate over the likely key lengths
is refined and returned first, with the pre-refinement candidate appended
when its key differs. -/
def cryptanalysisCrack (ciphertext : List Char) (maxKeyLength : ℕ)
    (dictionary : Dict) (targetRecognition : ℚ) (maxIterations : ℕ)
    (g : Rng) : Except String CrackResult :=
  let cleanText := cleanUpper ciphertext
  if cleanText.length < 20 then
    Except.error "Ciphertext too short for reliable analysis"
  else
    match pickBest ciphertext dictionary
      (likelyKeyLengths ciphertext maxKeyLength) with
    | none =>
      Except.ok ⟨[], none, "cryptanalysis", some "Could not find a viable key"⟩
    | some bestResult =>
      let refinementResult := refineKey bestResult.key ciphertext dictionary
        targetRecognition maxIterations g
      let refinedTop : Candidate :=
        { key := refinementResult.finalKey
          keyLength := refinementResult.finalKey.length
          wordStats := refinementResult.wordStats
          chiSquared := some bestResult.chiSquared
          compositeScore :=
            refinementResult.wordStats.percentage * 0.7
              + refinementResult.wordStats.weightedScore * 15
              - bestResult.chiSquared * 0.2
          improved := some refinementResult.improved
          iterations := some refinementResult.iterations
          preview := refinementResult.decrypted.take 100 }
      let topResults :=
        if refinementResult.finalKey ≠ bestResult.key then
          [refinedTop,
           { key := bestResult.key
             keyLength := bestResult.key.length
             wordStats := bestResult.wordStats
             chiSquared := some bestResult.chiSquared
             compositeScore := bestResult.compositeScore
             improved := none
             iterations := none
             preview := bestResult.decrypted.take 100 }]
        else [refinedTop]
      Except.ok
        ⟨topResults, some refinementResult.decrypted, "cryptanalysis", none⟩

/-- The candidates a crack call reports (none when it threw). -/
def resultCandidates (e : Except String CrackResult) : List Candidate :=
  match e with
  | Except.ok r => r.topResults
  | Except.error _ => []

end Vigenere

namespace Vigenere

/-- Embedding: `(Char.ofNat n).toNat = n` on the ASCII letter range. -/
theorem toNat_ofNat_of_le {n : ℕ} (h1 : 65 ≤ n) (h2 : n ≤ 122) :
    (Char.ofNat n).toNat = n := by
  unfold Char.ofNat
  split
  · rename_i h
    simp [Char.ofNatAux, Char.toNat, UInt32.toNat]
  · rename_i h
    exact absurd (Or.inl (by omega)) h

theorem length_stableInsert (le : α → α → Bool) (a : α) (l : List α) :
    (stableInsert le a l).length = l.length + 1 := by
  induction l with
  | nil => rfl
  | cons b t ih =>
    simp only [stableInsert]
    split <;> simp [ih]

theorem mem_stableInsert (le : α → α → Bool) (a x : α) (l : List α) :
    x ∈ stableInsert le a l ↔ x = a ∨ x ∈ l := by
  induction l with
  | nil => simp [stableInsert]
  | cons b t ih =>
    simp only [stableInsert]
    split
    · simp only [List.mem_cons, ih]; tauto
    · simp only [List.mem_cons]

theorem length_stableSort (le : α → α → Bool) (l : List α) :
    (stableSort le l).length = l.length := by
  suffices h : ∀ acc : List α,
      (l.foldl (fun acc a => stableInsert le a acc) acc).length
        = acc.length + l.length by
    simpa using h []
  induction l with
  | nil => intro acc; simp
  | cons b t ih =>
    intro acc
    simp only [List.foldl_cons]
    rw [ih, length_stableInsert]
    simp only [List.length_cons]
    omega

theorem mem_stableSort (le : α → α → Bool) (x : α) (l : List α) :
    x ∈ stableSort le l ↔ x ∈ l := by
  suffices h : ∀ acc : List α,
      (x ∈ l.foldl (fun acc a => stableInsert le a acc) acc)
        ↔ x ∈ acc ∨ x ∈ l by
    simpa [stableSort] using h []
  induction l with
  | nil => intro acc; simp
  | cons b t ih =>
    intro acc
    simp only [List.foldl_cons, ih, mem_stableInsert, List.mem_cons]
    tauto

theorem getD_mem_of_lt (l : List α) (n : ℕ) (d : α) (h : n < l.length) :
    l.getD n d ∈ l := by
  rw [List.getD_eq_getElem l d h]
  exact List.getElem_mem h

/-- Embedding: `jsToUpper` fixes uppercase letters. -/
theorem jsToUpper_of_upper {c : Char} (h1 : 65 ≤ c.toNat)
    (h2 : c.toNat ≤ 90) : jsToUpper c = c := by
  unfold jsToUpper isLowerLetter
  have : ¬ (97 ≤ c.toNat ∧ c.toNat ≤ 122) := by omega
  simp only [Bool.and_eq_true, decide_eq_true_eq]
  rw [if_neg]
  omega

/-- Embedding: `jsToUpper` on a lowercase letter subtracts 32. -/
theorem jsToUpper_of_lower {c : Char} (h1 : 97 ≤ c.toNat)
    (h2 : c.toNat ≤ 122) : jsToUpper c = Char.ofNat (c.toNat - 32) := by
  unfold jsToUpper isLowerLetter
  rw [if_pos]
  simp only [Bool.and_eq_true, decide_eq_true_eq]
  omega

/-- Embedding: `jsToLower` on an uppercase letter adds 32. -/
theorem jsToLower_of_upper {c : Char} (h1 : 65 ≤ c.toNat)
    (h2 : c.toNat ≤ 90) : jsToLower c = Char.ofNat (c.toNat + 32) := by
  unfold jsToLower isUpperLetter
  rw [if_pos]
  simp only [Bool.and_eq_true, decide_eq_true_eq]
  omega

/-- Characters with different codes differ. -/
theorem char_ne_of_toNat_ne {c d : Char} (h : c.toNat ≠ d.toNat) : c ≠ d :=
  fun hcd => h (by rw [hcd])

/-- Encrypting an uppercase letter with an uppercase key letter yields the
uppercase letter with code `65 + (charCode + keyCode) % 26`. -/
theorem encryptChar_upper {c k : Char} (hc1 : 65 ≤ c.toNat)
    (hc2 : c.toNat ≤ 90) (hk1 : 65 ≤ k.toNat) (hk2 : k.toNat ≤ 90) :
    encryptChar k c
      = Char.ofNat
          ((((c.toNat : ℤ) - 65 + ((k.toNat : ℤ) - 65)) % 26).toNat + 65) := by
  unfold encryptChar
  rw [jsToUpper_of_upper hc1 hc2]
  simp only [beq_self_eq_true, if_true]

/-- Decryption inverts encryption character-wise on uppercase letters. -/
theorem decryptChar_encryptChar_upper {c k : Char} (hc1 : 65 ≤ c.toNat)
    (hc2 : c.toNat ≤ 90) (hk1 : 65 ≤ k.toNat) (hk2 : k.toNat ≤ 90) :
    decryptChar k (encryptChar k c) = c := by
  rw [encryptChar_upper hc1 hc2 hk1 hk2]
  set a : ℤ := (c.toNat : ℤ) - 65 with ha
  set b : ℤ := (k.toNat : ℤ) - 65 with hb
  have hab : 0 ≤ (a + b) % 26 := Int.emod_nonneg _ (by norm_num)
  have hab2 : (a + b) % 26 < 26 := Int.emod_lt_of_pos _ (by norm_num)
  have he : (Char.ofNat (((a + b) % 26).toNat + 65)).toNat
      = ((a + b) % 26).toNat + 65 :=
    toNat_ofNat_of_le (by omega) (by omega)
  unfold decryptChar
  rw [jsToUpper_of_upper (by omega) (by omega)]
  simp only [beq_self_eq_true, if_true]
  rw [he]
  have harith :
      ((((((a + b) % 26).toNat + 65 : ℕ) : ℤ) - 65 - b + 26) % 26).toNat
        = c.toNat - 65 := by
    have h1 : ((((a + b) % 26).toNat : ℤ)) = (a + b) % 26 :=
      Int.toNat_of_nonneg hab
    have h2 : 0 ≤ a := by omega
    have h3 : a < 26 := by omega
    have h4 : 0 ≤ b := by omega
    have h5 : b < 26 := by omega
    omega
  rw [show ((((a + b) % 26).toNat + 65 : ℕ) : ℤ) - 65 - b + 26
      = (((a + b) % 26).toNat + 65 : ℕ) - 65 - b + 26 by push_cast; ring]
  rw [harith]
  rw [show c.toNat - 65 + 65 = c.toNat by omega]
  exact Char.ofNat_toNat c

/-- Encrypting a lowercase letter with an uppercase key letter yields the
lowercase letter with code `97 + (charCode + keyCode) % 26`. -/
theorem encryptChar_lower {c k : Char} (hc1 : 97 ≤ c.toNat)
    (hc2 : c.toNat ≤ 122) (hk1 : 65 ≤ k.toNat) (hk2 : k.toNat ≤ 90) :
    encryptChar k c
      = Char.ofNat
          ((((c.toNat : ℤ) - 97 + ((k.toNat : ℤ) - 65)) % 26).toNat + 97) := by
  unfold encryptChar
  rw [jsToUpper_of_lower hc1 hc2]
  have hup : (Char.ofNat (c.toNat - 32)).toNat = c.toNat - 32 :=
    toNat_ofNat_of_le (by omega) (by omega)
  have hne : Char.ofNat (c.toNat - 32) ≠ c :=
    char_ne_of_toNat_ne (by omega)
  rw [if_neg (by simpa using hne)]
  set a : ℤ := (c.toNat : ℤ) - 97 with ha
  set b : ℤ := (k.toNat : ℤ) - 65 with hb
  have hab : 0 ≤ (a + b) % 26 := Int.emod_nonneg _ (by norm_num)
  have hab2 : (a + b) % 26 < 26 := Int.emod_lt_of_pos _ (by norm_num)
  have heq : ((Char.ofNat (c.toNat - 32)).toNat : ℤ) - 65 + b = a + b := by
    rw [hup]; omega
  rw [show (((Char.ofNat (c.toNat - 32)).toNat : ℤ) - 65 + b) = a + b
      from heq]
  rw [jsToLower_of_upper (by rw [toNat_ofNat_of_le] <;> omega)
    (by rw [toNat_ofNat_of_le] <;> omega)]
  rw [toNat_ofNat_of_le (by omega) (by omega)]

/-- Decryption inverts encryption character-wise on lowercase letters. -/
theorem decryptChar_encryptChar_lower {c k : Char} (hc1 : 97 ≤ c.toNat)
    (hc2 : c.toNat ≤ 122) (hk1 : 65 ≤ k.toNat) (hk2 : k.toNat ≤ 90) :
    decryptChar k (encryptChar k c) = c := by
  rw [encryptChar_lower hc1 hc2 hk1 hk2]
  set a : ℤ := (c.toNat : ℤ) - 97 with ha
  set b : ℤ := (k.toNat : ℤ) - 65 with hb
  have hab : 0 ≤ (a + b) % 26 := Int.emod_nonneg _ (by norm_num)
  have hab2 : (a + b) % 26 < 26 := Int.emod_lt_of_pos _ (by norm_num)
  have he : (Char.ofNat (((a + b) % 26).toNat + 97)).toNat
      = ((a + b) % 26).toNat + 97 :=
    toNat_ofNat_of_le (by omega) (by omega)
  unfold decryptChar
  rw [jsToUpper_of_lower (by omega) (by omega)]
  rw [he]
  have hupNe : Char.ofNat (((a + b) % 26).toNat + 97 - 32)
      ≠ Char.ofNat (((a + b) % 26).toNat + 97) :=
    char_ne_of_toNat_ne (by
      rw [toNat_ofNat_of_le (by omega) (by omega), he]
      omega)
  rw [if_neg (by simpa using hupNe)]
  rw [toNat_ofNat_of_le (by omega) (by omega)]
  have harith :
      (((((a + b) % 26).toNat + 97 - 32 : ℕ) : ℤ) - 65 - b + 26) % 26 = a := by
    have h1 : ((((a + b) % 26).toNat : ℤ)) = (a + b) % 26 :=
      Int.toNat_of_nonneg hab
    have h2 : 0 ≤ a := by omega
    have h3 : a < 26 := by omega
    have h4 : 0 ≤ b := by omega
    have h5 : b < 26 := by omega
    omega
  rw [harith]
  rw [jsToLower_of_upper (by rw [toNat_ofNat_of_le] <;> omega)
    (by rw [toNat_ofNat_of_le] <;> omega)]
  rw [toNat_ofNat_of_le (by omega) (by omega)]
  rw [show a.toNat + 65 + 32 = c.toNat by omega]
  exact Char.ofNat_toNat c

/-- The encryption of a letter is a letter (of the same case). -/
theorem isAsciiLetter_encryptChar {c k : Char}
    (hc : isAsciiLetter c = true) (hk1 : 65 ≤ k.toNat)
    (hk2 : k.toNat ≤ 90) : isAsciiLetter (encryptChar k c) = true := by
  unfold isAsciiLetter isUpperLetter isLowerLetter at hc ⊢
  simp only [Bool.or_eq_true, Bool.and_eq_true, decide_eq_true_eq] at hc ⊢
  rcases hc with ⟨h1, h2⟩ | ⟨h1, h2⟩
  · rw [encryptChar_upper h1 h2 hk1 hk2]
    have hab : 0 ≤ ((c.toNat : ℤ) - 65 + ((k.toNat : ℤ) - 65)) % 26 :=
      Int.emod_nonneg _ (by norm_num)
    have hab2 : ((c.toNat : ℤ) - 65 + ((k.toNat : ℤ) - 65)) % 26 < 26 :=
      Int.emod_lt_of_pos _ (by norm_num)
    left
    rw [toNat_ofNat_of_le (by omega) (by omega)]
    omega
  · rw [encryptChar_lower h1 h2 hk1 hk2]
    have hab : 0 ≤ ((c.toNat : ℤ) - 97 + ((k.toNat : ℤ) - 65)) % 26 :=
      Int.emod_nonneg _ (by norm_num)
    have hab2 : ((c.toNat : ℤ) - 97 + ((k.toNat : ℤ) - 65)) % 26 < 26 :=
      Int.emod_lt_of_pos _ (by norm_num)
    right
    rw [toNat_ofNat_of_le (by omega) (by omega)]
    omega

/-- Decryption inverts the character encryption on every letter. -/
theorem decryptChar_encryptChar {c k : Char} (hc : isAsciiLetter c = true)
    (hk1 : 65 ≤ k.toNat) (hk2 : k.toNat ≤ 90) :
    decryptChar k (encryptChar k c) = c := by
  unfold isAsciiLetter isUpperLetter isLowerLetter at hc
  simp only [Bool.or_eq_true, Bool.and_eq_true, decide_eq_true_eq] at hc
  rcases hc with ⟨h1, h2⟩ | ⟨h1, h2⟩
  · exact decryptChar_encryptChar_upper h1 h2 hk1 hk2
  · exact decryptChar_encryptChar_lower h1 h2 hk1 hk2

/-- The loop-level round trip: decrypting an encryption letter-by-letter,
from the same key index, restores the text. -/
theorem decryptGo_encryptGo (upperKey : List Char)
    (hne : upperKey ≠ [])
    (hup : ∀ k ∈ upperKey, 65 ≤ k.toNat ∧ k.toNat ≤ 90) :
    ∀ (text : List Char) (keyIndex : ℕ),
      decryptGo upperKey (encryptGo upperKey text keyIndex) keyIndex
        = text := by
  intro text
  induction text with
  | nil => intro keyIndex; rfl
  | cons c rest ih =>
    intro keyIndex
    by_cases hc : isAsciiLetter c = true
    · have hlen : 0 < upperKey.length := List.length_pos.mpr hne
      have hkmem : upperKey.getD (keyIndex % upperKey.length) 'A' ∈ upperKey :=
        getD_mem_of_lt _ _ _ (Nat.mod_lt _ hlen)
      obtain ⟨hk1, hk2⟩ := hup _ hkmem
      rw [encryptGo, if_pos hc]
      rw [decryptGo,
        if_pos (isAsciiLetter_encryptChar hc hk1 hk2)]
      rw [decryptChar_encryptChar hc hk1 hk2, ih]
    · rw [encryptGo, if_neg hc, decryptGo, if_neg hc, ih]

/-- Embedding: `jsToUpper` fixes a list of uppercase letters. -/
theorem map_jsToUpper_of_upper {K : List Char}
    (hK : ∀ k ∈ K, 65 ≤ k.toNat ∧ k.toNat ≤ 90) : K.map jsToUpper = K := by
  induction K with
  | nil => rfl
  | cons c rest ih =>
    have hc := hK c (by simp)
    simp only [List.map_cons, jsToUpper_of_upper hc.1 hc.2, List.cons.injEq,
      true_and]
    exact ih fun k hk => hK k (by simp [hk])

/-- C1.  `decryptWithKey` inverts Vigenère encryption: for every
plaintext `P` and nonempty uppercase key `K`, decrypting the encryption
of `P` under `K` (the key-repeating forward shift modelled from the spec,
counting letters only, case preserved, non-letters passed through) gives
back `P` exactly; and concretely
`decryptWithKey("LXFOPVEFRNHR", "LEMON") = "ATTACKATDAWN"`. -/
theorem claim_C1_decrypt_inverts_encrypt (P K : List Char)
    (hne : K ≠ []) (hK : ∀ k ∈ K, 65 ≤ k.toNat ∧ k.toNat ≤ 90) :
    decryptWithKey (encryptVigenere P K) (some K) = P ∧
      decryptWithKey ("LXFOPVEFRNHR".data) (some ("LEMON".data))
        = "ATTACKATDAWN".data := by
  constructor
  · have hKempty : K.isEmpty = false := by
      cases K with
      | nil => exact absurd rfl hne
      | cons a t => rfl
    unfold encryptVigenere decryptWithKey
    simp only [hKempty, Bool.false_eq_true, if_false]
    rw [map_jsToUpper_of_upper hK]
    exact decryptGo_encryptGo K hne hK P 0
  · decide

/-- Witness for C1 at `P = "ATTACKATDAWN"`, `K = "LEMON"`. -/
theorem claim_C1_witness :
    decryptWithKey (encryptVigenere ("ATTACKATDAWN".data) ("LEMON".data))
        (some ("LEMON".data)) = "ATTACKATDAWN".data ∧
      decryptWithKey ("LXFOPVEFRNHR".data) (some ("LEMON".data))
        = "ATTACKATDAWN".data :=
  claim_C1_decrypt_inverts_encrypt ("ATTACKATDAWN".data) ("LEMON".data)
    (by decide) (by decide)

/-- One expansion step of `generateKeys` never leaves more than 5000
combinations. -/
theorem generateKeys_step_le (combos : List (List ℕ)) (opts : List ℕ) :
    (let newCombinations :=
      combos.flatMap (fun combo => opts.map (fun shift => combo ++ [shift]))
     if 5000 < newCombinations.length then newCombinations.take 5000
     else newCombinations).length ≤ 5000 := by
  simp only
  split
  · rename_i h
    simp only [List.length_take]
    omega
  · rename_i h
    omega

/-- After at least one expansion step, the combination list is capped. -/
theorem generateKeys_foldl_le (rest : List (List ℕ))
    (hne : rest ≠ []) (acc : List (List ℕ)) :
    (rest.foldl (fun combos opts =>
      let newCombinations :=
        combos.flatMap (fun combo => opts.map (fun shift => combo ++ [shift]))
      if 5000 < newCombinations.length then newCombinations.take 5000
      else newCombinations) acc).length ≤ 5000 := by
  induction rest generalizing acc with
  | nil => exact absurd rfl hne
  | cons o t ih =>
    rw [List.foldl_cons]
    cases t with
    | nil =>
      rw [List.foldl_nil]
      exact generateKeys_step_le acc o
    | cons o2 t2 => exact ih (by simp) _

/-- C6 counterexample.  A single-position option list with 5001 options
defeats the cap: `generateKeys` returns 5001 keys, because the
`slice(0, 5000)` truncation only runs inside the loop that starts at
position 1. -/
theorem claim_C6_counterexample :
    5000 < (generateKeys [List.range 5001]).length := by
  simp [generateKeys]

/-- C6 amended.  With at least two key positions (as in every call the
worker makes for key lengths ≥ 2 — and the only way the loop body and
its cap can run), `generateKeys` returns at most 5000 candidate keys,
whatever the per-position option counts; a single-position input instead
returns exactly one key per option, uncapped. -/
theorem claim_C6_amended_cap (shiftOptions : List (List ℕ))
    (h : 2 ≤ shiftOptions.length) :
    (generateKeys shiftOptions).length ≤ 5000 := by
  match shiftOptions, h with
  | first :: second :: rest, _ =>
    unfold generateKeys
    simp only [List.length_map]
    exact generateKeys_foldl_le (second :: rest) (by simp) _

/-- Witness for C6 amended, at a two-position input. -/
theorem claim_C6_amended_witness :
    (generateKeys [[0, 1], [2]]).length ≤ 5000 :=
  claim_C6_amended_cap [[0, 1], [2]] (by decide)

/-- The accumulator of `countRecognizedWords` equals the count and weight
sum of the recognized long tokens. -/
theorem countRecognizedWords_foldl (dictionary : Dict)
    (words : List (List Char)) :
    ∀ acc : ℕ × ℚ,
    (words.foldl (fun acc word =>
      if 2 ≤ word.length then
        match dictionary.lookup word with
        | some wordWeight =>
            if wordWeight == 0 then acc else (acc.1 + 1, acc.2 + wordWeight)
        | none => acc
      else acc) acc)
    = (acc.1 + (words.filter
          (fun w => 2 ≤ w.length && isRecognized dictionary w)).length,
       acc.2 + ((words.filter
          (fun w => 2 ≤ w.length && isRecognized dictionary w)).map
            (weightOf dictionary)).sum) := by
  induction words with
  | nil => intro acc; simp
  | cons w rest ih =>
    intro acc
    rw [List.foldl_cons, List.filter_cons]
    by_cases hlen : 2 ≤ w.length
    · cases hlook : dictionary.lookup w with
      | none =>
        have hrec : (decide (2 ≤ w.length) && isRecognized dictionary w)
            = false := by
          simp [isRecognized, hlook]
        rw [hrec]
        simp only [Bool.false_eq_true, if_false, hlen, hlook, if_true]
        exact ih acc
      | some ww =>
        by_cases hzero : ww = 0
        · have hrec : (decide (2 ≤ w.length) && isRecognized dictionary w)
              = false := by
            simp [isRecognized, hlook, hzero]
          rw [hrec]
          simp only [Bool.false_eq_true, if_false, hlen, hlook, if_true,
            hzero, beq_self_eq_true]
          exact ih acc
        · have hrec : (decide (2 ≤ w.length) && isRecognized dictionary w)
              = true := by
            simp [isRecognized, hlook, hlen, hzero]
          rw [hrec]
          simp only [if_true, hlen, hlook]
          rw [if_neg (by simpa using hzero)]
          rw [ih]
          simp only [List.length_cons, List.map_cons, List.sum_cons,
            weightOf, hlook, Option.getD_some, Prod.mk.injEq]
          constructor
          · omega
          · ring
    · have hrec : (decide (2 ≤ w.length) && isRecognized dictionary w)
          = false := by simp [hlen]
      rw [hrec]
      simp only [Bool.false_eq_true, if_false, hlen]
      exact ih acc

/-- C5 counterexample.  On `"an a"` with the dictionary `{an: 1}`, the
single-character token `"a"` is not discarded from the denominators: the
code returns percentage 50 (and weighted score 1/2), while the claim's
post-discard denominators give 100 (and 1). -/
theorem claim_C5_counterexample :
    (countRecognizedWords ("an a".data) [("an".data, 1)]).percentage
        = 50 ∧
      (countRecognizedWordsSpec ("an a".data) [("an".data, 1)]).percentage
        = 100 := by
  with_unfolding_all decide

/-- C5 amended.  `countRecognizedWords` tokenizes into maximal letter
runs case-insensitively; tokens shorter than 2 are never *recognized*
but still count in both denominators: percentage and weighted score are
`recognized/allTokens × 100` and `totalWeight/allTokens` over *all*
nonempty tokens (0 each when there are none, so the empty string yields
`{count: 0, total: 0, percentage: 0, weightedScore: 0}`). -/
theorem claim_C5_amended_word_stats (text : List Char) (dictionary : Dict) :
    countRecognizedWords text dictionary
        = countRecognizedWordsAmended text dictionary ∧
      countRecognizedWords [] dictionary = ⟨0, 0, 0, 0⟩ := by
  constructor
  · unfold countRecognizedWords countRecognizedWordsAmended
    simp only [countRecognizedWords_foldl]
    simp
  · rfl

theorem dedup_toFinset_eq (l : List Char) : l.dedup.toFinset = l.toFinset := by
  ext c
  simp [List.mem_dedup]

theorem dedup_replicate_of_pos (a : α) [DecidableEq α] :
    ∀ n : ℕ, 1 ≤ n → (List.replicate n a).dedup = [a] := by
  intro n
  induction n with
  | zero => omega
  | succ m ih =>
    intro _
    rw [List.replicate_succ]
    by_cases hm : 1 ≤ m
    · rw [List.dedup_cons_of_mem (by simp [List.mem_replicate]; omega)]
      exact ih hm
    · have : m = 0 := by omega
      subst this
      rfl

/-- The 26 letter codes used by `calculateChiSquared` and the IC sum. -/
def letterFinset : Finset Char :=
  (Finset.range 26).image (fun i => Char.ofNat (65 + i))

theorem mem_letterFinset {c : Char} (h1 : 65 ≤ c.toNat)
    (h2 : c.toNat ≤ 90) : c ∈ letterFinset := by
  unfold letterFinset
  rw [Finset.mem_image]
  refine ⟨c.toNat - 65, Finset.mem_range.mpr (by omega), ?_⟩
  rw [show 65 + (c.toNat - 65) = c.toNat by omega]
  exact Char.ofNat_toNat c

/-- The per-letter IC sum over the distinct letters present equals the
sum over all 26 letters (absent letters contribute 0). -/
theorem sum_dedup_eq_sum_range26 (l : List Char)
    (hl : ∀ c ∈ l, isUpperLetter c = true) :
    ((l.dedup).map (fun c => l.count c * (l.count c - 1))).sum
      = ∑ i ∈ Finset.range 26,
          l.count (Char.ofNat (65 + i))
            * (l.count (Char.ofNat (65 + i)) - 1) := by
  set f : Char → ℕ := fun c => l.count c * (l.count c - 1) with hf
  have h1 : ((l.dedup).map f).sum = l.toFinset.sum f := by
    rw [← dedup_toFinset_eq, List.sum_toFinset f (List.nodup_dedup l)]
  have h2 : l.toFinset.sum f = letterFinset.sum f := by
    apply Finset.sum_subset
    · intro c hc
      have hc2 := hl c (List.mem_toFinset.mp hc)
      unfold isUpperLetter at hc2
      simp only [Bool.and_eq_true, decide_eq_true_eq] at hc2
      exact mem_letterFinset hc2.1 hc2.2
    · intro c _ hc
      have : l.count c = 0 := List.count_eq_zero.mpr
        (fun hmem => hc (List.mem_toFinset.mpr hmem))
      simp [hf, this]
  have h3 : letterFinset.sum f
      = ∑ i ∈ Finset.range 26, f (Char.ofNat (65 + i)) := by
    unfold letterFinset
    apply Finset.sum_image
    intro x hx y hy hxy
    have hx26 := Finset.mem_range.mp hx
    have hy26 := Finset.mem_range.mp hy
    have : (Char.ofNat (65 + x)).toNat = (Char.ofNat (65 + y)).toNat := by
      rw [hxy]
    rw [toNat_ofNat_of_le (by omega) (by omega),
      toNat_ofNat_of_le (by omega) (by omega)] at this
    omega
  rw [h1, h2, h3]

/-- Every character of a cleaned text is an uppercase letter. -/
theorem cleanUpper_upper (text : List Char) :
    ∀ c ∈ cleanUpper text, isUpperLetter c = true := by
  intro c hc
  exact List.of_mem_filter hc

/-- C8.  `calculateIC` returns exactly 0 on any text whose cleaned form
has at most one letter; exactly 1 on `n ≥ 2` copies of a single letter;
and in general equals `Σ n_c(n_c − 1) / (N(N − 1))` over the 26 letter
counts of the cleaned text (the `ℚ` convention `x / 0 = 0` covers
`N ≤ 1`, where the numerator also vanishes). -/
theorem claim_C8_index_of_coincidence (textA textC : List Char) (c : Char)
    (n : ℕ) (hA : (cleanUpper textA).length ≤ 1)
    (hc : isAsciiLetter c = true) (hn : 2 ≤ n) :
    calculateIC textA = 0 ∧
      calculateIC (List.replicate n c) = 1 ∧
      calculateIC textC
        = ((∑ i ∈ Finset.range 26,
              (cleanUpper textC).count (Char.ofNat (65 + i))
                * ((cleanUpper textC).count (Char.ofNat (65 + i)) - 1)
              : ℕ) : ℚ)
            / (((cleanUpper textC).length : ℚ)
                * (((cleanUpper textC).length : ℚ) - 1)) := by
  refine ⟨?_, ?_, ?_⟩
  · unfold calculateIC
    rw [if_pos hA]
  · -- the cleaned text is `n` copies of the uppercased letter
    have hu : isUpperLetter (jsToUpper c) = true := by
      unfold isAsciiLetter isUpperLetter isLowerLetter at hc
      simp only [Bool.or_eq_true, Bool.and_eq_true, decide_eq_true_eq] at hc
      rcases hc with ⟨h1, h2⟩ | ⟨h1, h2⟩
      · rw [jsToUpper_of_upper h1 h2]
        unfold isUpperLetter
        simp only [Bool.and_eq_true, decide_eq_true_eq]
        omega
      · rw [jsToUpper_of_lower h1 h2]
        unfold isUpperLetter
        simp only [Bool.and_eq_true, decide_eq_true_eq]
        rw [toNat_ofNat_of_le (by omega) (by omega)]
        omega
    have hclean : cleanUpper (List.replicate n c)
        = List.replicate n (jsToUpper c) := by
      unfold cleanUpper
      rw [List.map_replicate, List.filter_replicate, if_pos hu]
    unfold calculateIC
    rw [hclean]
    simp only []
    rw [dedup_replicate_of_pos _ n (by omega)]
    simp only [List.map_cons, List.map_nil, List.sum_cons, List.sum_nil,
      List.count_replicate_self, List.length_replicate, add_zero]
    rw [if_neg (by omega)]
    have hne : ((n : ℚ)) * ((n : ℚ) - 1) ≠ 0 := by
      have h1 : (2 : ℚ) ≤ (n : ℚ) := by exact_mod_cast hn
      intro hzero
      rcases mul_eq_zero.mp hzero with h | h
      · rw [h] at h1; norm_num at h1
      · have : (n : ℚ) = 1 := by linarith
        rw [this] at h1; norm_num at h1
    rw [div_eq_one_iff_eq hne]
    push_cast [Nat.cast_sub (by omega : 1 ≤ n)]
    ring
  · unfold calculateIC
    simp only []
    rw [sum_dedup_eq_sum_range26 _ (cleanUpper_upper textC)]
    split
    · rename_i hle
      have hzero : ∀ i ∈ Finset.range 26,
          (cleanUpper textC).count (Char.ofNat (65 + i))
            * ((cleanUpper textC).count (Char.ofNat (65 + i)) - 1) = 0 := by
        intro i _
        have hcl := List.count_le_length (Char.ofNat (65 + i)) (cleanUpper textC)
        rw [show (cleanUpper textC).count (Char.ofNat (65 + i)) - 1 = 0
          from by omega, Nat.mul_zero]
      rw [Finset.sum_congr rfl hzero]
      simp
    · rfl

/-- Witness for C8 at `textA = "x!"`, `c = 'q'`, `n = 3`,
`textC = "HELLO"`. -/
theorem claim_C8_witness :
    calculateIC ("x!".data) = 0 ∧
      calculateIC (List.replicate 3 'q') = 1 ∧
      calculateIC ("HELLO".data)
        = ((∑ i ∈ Finset.range 26,
              (cleanUpper ("HELLO".data)).count (Char.ofNat (65 + i))
                * ((cleanUpper ("HELLO".data)).count (Char.ofNat (65 + i)) - 1)
              : ℕ) : ℚ)
            / (((cleanUpper ("HELLO".data)).length : ℚ)
                * (((cleanUpper ("HELLO".data)).length : ℚ) - 1)) :=
  claim_C8_index_of_coincidence ("x!".data) ("HELLO".data) 'q' 3
    (by decide) (by decide) (by decide)

/-- Embedding: `acceptImprovement` couples the tracked score to the installed word
stats and leaves the iteration counter alone. -/
theorem acceptImprovement_spec (s : RefineState) (k d : List Char)
    (w : WordStats) :
    (acceptImprovement s k d w).iterations = s.iterations ∧
      (acceptImprovement s k d w).bestScore = w.percentage ∧
      (acceptImprovement s k d w).bestWordStats = w :=
  ⟨rfl, rfl, rfl⟩

/-- A successful single-letter scan strictly raises the score, keeps the
iteration counter, and restores the stats/score coupling. -/
theorem tryShiftList_spec (ciphertext : List Char) (dictionary : Dict)
    (pos : ℕ) : ∀ (l : List ℕ) (s s' : RefineState),
    tryShiftList ciphertext dictionary s pos l = some s' →
    s.bestScore ≤ s'.bestScore ∧ s'.iterations = s.iterations ∧
      s'.bestWordStats.percentage = s'.bestScore := by
  intro l
  induction l with
  | nil => intro s s' h; exact absurd h (by simp [tryShiftList])
  | cons shift rest ih =>
    intro s s' h
    rw [tryShiftList] at h
    split at h
    · exact ih s s' h
    · simp only [] at h
      split at h
      · rename_i hlt
        obtain rfl := Option.some.inj h
        exact ⟨le_of_lt hlt, rfl, rfl⟩
      · exact ih s s' h

/-- One position step: the score never drops, the iteration counter is
untouched, and the stats/score coupling is preserved. -/
theorem positionStep_spec (ciphertext : List Char) (dictionary : Dict)
    (stagnating : Bool) (pos : ℕ) (s : RefineState) :
    s.bestScore
        ≤ (positionStep ciphertext dictionary stagnating pos s).1.bestScore ∧
      (positionStep ciphertext dictionary stagnating pos s).1.iterations
        = s.iterations ∧
      (s.bestWordStats.percentage = s.bestScore →
        (positionStep ciphertext dictionary stagnating pos s).1.bestWordStats.percentage
          = (positionStep ciphertext dictionary stagnating pos s).1.bestScore) := by
  unfold positionStep
  generalize hfy : fisherYates 25 (List.range 26) s.rng = fy
  simp only []
  cases heq : tryShiftList ciphertext dictionary
      { s with rng := fy.2 } pos fy.1 with
  | some s2 =>
    simp only [heq]
    obtain ⟨h1, h2, h3⟩ := tryShiftList_spec ciphertext dictionary pos _ _ _ heq
    exact ⟨h1, h2, fun _ => h3⟩
  | none =>
    simp only [heq]
    split
    · split
      · rename_i hlt
        exact ⟨le_of_lt hlt, rfl, fun _ => rfl⟩
      · exact ⟨le_refl _, rfl, fun h => h⟩
    · exact ⟨le_refl _, rfl, fun h => h⟩

/-- The per-iteration position loop: the score never drops, the
iteration counter is untouched, and the stats/score coupling is
preserved. -/
theorem positionLoop_spec (ciphertext : List Char) (dictionary : Dict)
    (stagnating : Bool) : ∀ (positions : List ℕ) (s : RefineState),
    s.bestScore
        ≤ (positionLoop ciphertext dictionary stagnating positions s).1.bestScore ∧
      (positionLoop ciphertext dictionary stagnating positions s).1.iterations
        = s.iterations ∧
      (s.bestWordStats.percentage = s.bestScore →
        (positionLoop ciphertext dictionary stagnating positions s).1.bestWordStats.percentage
          = (positionLoop ciphertext dictionary stagnating positions s).1.bestScore) := by
  intro positions
  induction positions with
  | nil => intro s; exact ⟨le_refl _, rfl, fun h => h⟩
  | cons pos restPos ih =>
    intro s
    obtain ⟨h1, h2, h3⟩ := positionStep_spec ciphertext dictionary stagnating pos s
    rw [positionLoop]
    split
    · exact ⟨h1, h2, h3⟩
    · obtain ⟨hr1, hr2, hr3⟩ := ih
        (positionStep ciphertext dictionary stagnating pos s).1
      exact ⟨le_trans h1 hr1, by rw [hr2, h2],
        fun hc => hr3 (h3 hc)⟩

/-- One refinement iteration: the score never drops, the counter
advances by exactly one, and the stats/score coupling is preserved. -/
theorem refineBody_spec (ciphertext : List Char) (dictionary : Dict)
    (s : RefineState) :
    s.bestScore ≤ (refineBody ciphertext dictionary s).bestScore ∧
      (refineBody ciphertext dictionary s).iterations = s.iterations + 1 ∧
      (s.bestWordStats.percentage = s.bestScore →
        (refineBody ciphertext dictionary s).bestWordStats.percentage
          = (refineBody ciphertext dictionary s).bestScore) := by
  unfold refineBody
  simp only
  obtain ⟨h1, h2, h3⟩ := positionLoop_spec ciphertext dictionary _
    (List.range (s.bestKey.length))
    { s with iterations := s.iterations + 1 }
  split
  · exact ⟨h1, h2, h3⟩
  · split
    · rename_i hlt
      refine ⟨le_trans h1 (le_of_lt hlt), ?_, fun _ => rfl⟩
      simp only [acceptImprovement]
      exact h2
    · exact ⟨h1, h2, h3⟩

/-- A true continuation condition implies `iterations < maxIters`. -/
theorem refineCond_lt (targetPercentage : ℚ) (maxIters : ℕ)
    (s : RefineState) (h : refineCond targetPercentage maxIters s = true) :
    s.iterations < maxIters := by
  unfold refineCond at h
  simp only [Bool.or_eq_true, Bool.and_eq_true, decide_eq_true_eq] at h
  rcases h with ⟨_, h⟩ | ⟨h, _⟩ <;> exact h

/-- The refinement while loop: the score never drops, the coupling is
preserved, the counter stays within `maxIters`, and — because of the
end-of-iteration break — a state already at or past the target runs at
most one further iteration. -/
theorem refineLoop_spec (ciphertext : List Char) (dictionary : Dict)
    (targetPercentage : ℚ) (maxIters : ℕ) :
    ∀ (fuel : ℕ) (s : RefineState),
    s.bestWordStats.percentage = s.bestScore →
    s.bestScore
        ≤ (refineLoop ciphertext dictionary targetPercentage maxIters fuel s).bestScore ∧
      (refineLoop ciphertext dictionary targetPercentage maxIters fuel s).bestWordStats.percentage
        = (refineLoop ciphertext dictionary targetPercentage maxIters fuel s).bestScore ∧
      (s.iterations ≤ maxIters →
        (refineLoop ciphertext dictionary targetPercentage maxIters fuel s).iterations
          ≤ maxIters) ∧
      (targetPercentage ≤ s.bestScore →
        (refineLoop ciphertext dictionary targetPercentage maxIters fuel s).iterations
          ≤ s.iterations + 1) := by
  intro fuel
  induction fuel with
  | zero =>
    intro s hinv
    exact ⟨le_refl _, hinv, fun h => h, fun _ => Nat.le_succ _⟩
  | succ n ih =>
    intro s hinv
    rw [refineLoop]
    split
    · rename_i hcond
      have hlt := refineCond_lt targetPercentage maxIters s hcond
      obtain ⟨hb1, hb2, hb3⟩ := refineBody_spec ciphertext dictionary s
      simp only []
      split
      · rename_i htarget
        exact ⟨hb1, hb3 hinv, fun _ => by omega, fun _ => by omega⟩
      · rename_i htarget
        obtain ⟨hr1, hr2, hr3, hr4⟩ := ih (refineBody ciphertext dictionary s)
          (hb3 hinv)
        refine ⟨le_trans hb1 hr1, hr2, fun _ => hr3 (by omega), ?_⟩
        intro htgt
        exact absurd (le_trans htgt (le_trans hb1 (le_refl _))) htarget
    · exact ⟨le_refl _, hinv, fun h => h, fun _ => Nat.le_succ _⟩

/-- C4.  For every seed key, ciphertext, dictionary, target, iteration
bound and random stream, `refineKey` performs at most `maxIters`
iterations, and the recognition percentage of the result is never below
the seed key's recognition percentage (the tracked best score only moves
on strict improvement, upward). -/
theorem claim_C4_refineKey_bounds (initialKey ciphertext : List Char)
    (dictionary : Dict) (targetPercentage : ℚ) (maxIters : ℕ) (g : Rng) :
    (refineKey initialKey ciphertext dictionary targetPercentage maxIters
        g).iterations ≤ maxIters ∧
      (countRecognizedWords (decryptWithKey ciphertext (some initialKey))
          dictionary).percentage
        ≤ (refineKey initialKey ciphertext dictionary targetPercentage
            maxIters g).wordStats.percentage := by
  obtain ⟨h1, h2, h3, _⟩ := refineLoop_spec ciphertext dictionary
    targetPercentage maxIters maxIters
    ⟨initialKey, decryptWithKey ciphertext (some initialKey),
      countRecognizedWords (decryptWithKey ciphertext (some initialKey))
        dictionary,
      (countRecognizedWords (decryptWithKey ciphertext (some initialKey))
        dictionary).percentage,
      0, false, 0, g⟩ rfl
  refine ⟨h3 (Nat.zero_le _), ?_⟩
  unfold refineKey
  simp only
  rw [h2]
  exact h1

/-- C7 counterexample.  The claim says some execution runs up to 10
extra non-improving iterations past the target.  In the most permissive
setting — the seed key already meets the target (so only the stagnation
grace period `iterations − lastImprovedIteration < 10` keeps the loop
alive) and `maxIterations = 35` leaves ample room — the run stops after
exactly one (non-improving) iteration: the end-of-iteration
`if (bestScore >= targetPercentage) break` fires as soon as the
condition is examined, so the grace period can never accumulate
2..10 past-target iterations; the amended theorem proves the ≤ 1 bound
for every input and random stream. -/
theorem claim_C7_counterexample :
    (refineKey ("A".data) ("it".data) [("it".data, 1)] 0 35
        ⟨fun _ => 0, 0⟩).iterations = 1 ∧
      (refineKey ("A".data) ("it".data) [("it".data, 1)] 0 35
        ⟨fun _ => 0, 0⟩).improved = false := by
  with_unfolding_all decide

/-- C7 amended.  The refinement loop does keep exploring once the best
score has reached `targetPercentage` — but for at most ONE further
iteration, not up to 10: the end-of-iteration break fires whenever
`bestScore ≥ targetPercentage`, so the 10-iteration stagnation grace
period in the loop condition only ever grants the single iteration run
when the seed already meets the target; `maxIterations` is never
exceeded. -/
theorem claim_C7_amended_one_past_target (initialKey ciphertext : List Char)
    (dictionary : Dict) (targetPercentage : ℚ) (maxIters : ℕ) (g : Rng)
    (h : targetPercentage
      ≤ (countRecognizedWords (decryptWithKey ciphertext (some initialKey))
          dictionary).percentage) :
    (refineKey initialKey ciphertext dictionary targetPercentage maxIters
        g).iterations ≤ 1 ∧
      (refineKey initialKey ciphertext dictionary targetPercentage maxIters
        g).iterations ≤ maxIters := by
  obtain ⟨_, _, h3, h4⟩ := refineLoop_spec ciphertext dictionary
    targetPercentage maxIters maxIters
    ⟨initialKey, decryptWithKey ciphertext (some initialKey),
      countRecognizedWords (decryptWithKey ciphertext (some initialKey))
        dictionary,
      (countRecognizedWords (decryptWithKey ciphertext (some initialKey))
        dictionary).percentage,
      0, false, 0, g⟩ rfl
  exact ⟨h4 h, h3 (Nat.zero_le _)⟩

/-- Witness for C7 amended: seed `"A"` on `"it"` with dictionary
`{it: 1}` already meets target 0. -/
theorem claim_C7_amended_witness :
    (refineKey ("A".data) ("it".data) [("it".data, 1)] 0 5
        ⟨fun _ => 1, 0⟩).iterations ≤ 1 ∧
      (refineKey ("A".data) ("it".data) [("it".data, 1)] 0 5
        ⟨fun _ => 1, 0⟩).iterations ≤ 5 :=
  claim_C7_amended_one_past_target ("A".data) ("it".data) [("it".data, 1)]
    0 5 ⟨fun _ => 1, 0⟩ (by with_unfolding_all decide)

/-- A rated known key carries the full composite formula. -/
theorem bruteForceCandidate_formula (ciphertext : List Char)
    (dictionary : Dict) (key : List Char) :
    (bruteForceCandidate ciphertext dictionary key).compositeScore
      = (bruteForceCandidate ciphertext dictionary key).wordStats.percentage
            * 0.7
          + (bruteForceCandidate ciphertext dictionary
              key).wordStats.weightedScore * 15
          - (bruteForceCandidate ciphertext dictionary key).chiSquared.getD 0
            * 0.2 := rfl

/-- Every member of the brute-force top-5 carries the full formula. -/
theorem mem_bruteForceTop_formula (ciphertext : List Char)
    (keys : List (List Char)) (dictionary : Dict) :
    ∀ c ∈ bruteForceTop ciphertext keys dictionary,
      c.compositeScore
        = c.wordStats.percentage * 0.7 + c.wordStats.weightedScore * 15
            - c.chiSquared.getD 0 * 0.2 := by
  intro c hc
  unfold bruteForceTop at hc
  have hc2 := List.take_subset 5 _ hc
  rw [mem_stableSort] at hc2
  obtain ⟨key, _, rfl⟩ := List.mem_map.mp hc2
  exact bruteForceCandidate_formula ciphertext dictionary key

/-- Every candidate `bruteForceCrack` reports satisfies the formula with
its own carried `chiSquared` field read as 0 when absent (the refined
entry is the one with no `chiSquared`). -/
theorem bruteForceCrack_candidates_formula (ciphertext : List Char)
    (keys : List (List Char)) (dictionary : Dict) (targetRecognition : ℚ)
    (maxIterations : ℕ) (g : Rng) :
    ∀ c ∈ (bruteForceCrack ciphertext keys dictionary targetRecognition
        maxIterations g).topResults,
      c.compositeScore
        = c.wordStats.percentage * 0.7 + c.wordStats.weightedScore * 15
            - c.chiSquared.getD 0 * 0.2 := by
  intro c hc
  unfold bruteForceCrack at hc
  simp only [] at hc
  split at hc
  · exact mem_bruteForceTop_formula ciphertext keys dictionary c hc
  · split at hc
    · split at hc
      · rw [List.mem_cons] at hc
        rcases hc with rfl | hc
        · simp [refinedBruteForceCandidate]
        · exact mem_bruteForceTop_formula ciphertext keys dictionary c hc
      · exact mem_bruteForceTop_formula ciphertext keys dictionary c hc
    · exact mem_bruteForceTop_formula ciphertext keys dictionary c hc

/-- Embedding: `rateKeyQuality` output carries the full composite formula. -/
theorem rateKeyQuality_formula (key ciphertext : List Char)
    (dictionary : Dict) :
    (rateKeyQuality key ciphertext dictionary).compositeScore
      = (rateKeyQuality key ciphertext dictionary).wordStats.percentage * 0.7
          + (rateKeyQuality key ciphertext
              dictionary).wordStats.weightedScore * 15
          - (rateKeyQuality key ciphertext dictionary).chiSquared * 0.2 := rfl

/-- Every rated key in a per-length candidate list carries the formula. -/
theorem mem_keyResultsFor_formula (ciphertext : List Char)
    (dictionary : Dict) (keyLength : ℕ) :
    ∀ rk ∈ keyResultsFor ciphertext dictionary keyLength,
      rk.compositeScore
        = rk.wordStats.percentage * 0.7 + rk.wordStats.weightedScore * 15
            - rk.chiSquared * 0.2 := by
  intro rk h
  unfold keyResultsFor at h
  simp only [] at h
  rw [mem_stableSort] at h
  obtain ⟨key, _, rfl⟩ := List.mem_map.mp h
  exact rateKeyQuality_formula key ciphertext dictionary

/-- The `bestResult` accumulator only ever holds formula-carrying rated
keys. -/
theorem pickBest_formula (ciphertext : List Char) (dictionary : Dict) :
    ∀ (lengths : List ℕ) (acc : Option RatedKey),
      (∀ b, acc = some b →
        b.compositeScore
          = b.wordStats.percentage * 0.7 + b.wordStats.weightedScore * 15
              - b.chiSquared * 0.2) →
      ∀ b,
        lengths.foldl (fun bestResult keyLength =>
          match keyResultsFor ciphertext dictionary keyLength with
          | [] => bestResult
          | bestKeyForLength :: _ =>
            match bestResult with
            | none => some bestKeyForLength
            | some b =>
              if b.compositeScore < bestKeyForLength.compositeScore then
                some bestKeyForLength
              else some b) acc = some b →
        b.compositeScore
          = b.wordStats.percentage * 0.7 + b.wordStats.weightedScore * 15
              - b.chiSquared * 0.2 := by
  intro lengths
  induction lengths with
  | nil =>
    intro acc hacc b hb
    rw [List.foldl_nil] at hb
    exact hacc b hb
  | cons keyLength rest ih =>
    intro acc hacc b hb
    rw [List.foldl_cons] at hb
    cases hkr : keyResultsFor ciphertext dictionary keyLength with
    | nil =>
      rw [hkr] at hb  -- reduce the step to `acc`
      exact ih acc hacc b hb
    | cons bk tail =>
      rw [hkr] at hb
      cases acc with
      | none =>
        refine ih (some bk) ?_ b hb
        intro b2 hb2
        obtain rfl := Option.some.inj hb2
        exact mem_keyResultsFor_formula ciphertext dictionary keyLength bk
          (by rw [hkr]; exact List.mem_cons_self bk tail)
      | some a =>
        have hbk : bk.compositeScore
            = bk.wordStats.percentage * 0.7 + bk.wordStats.weightedScore * 15
                - bk.chiSquared * 0.2 :=
          mem_keyResultsFor_formula ciphertext dictionary keyLength bk
            (by rw [hkr]; exact List.mem_cons_self bk tail)
        simp only [] at hb
        split at hb
        · exact ih (some bk) (fun b2 hb2 => by
            obtain rfl := Option.some.inj hb2; exact hbk) b hb
        · exact ih (some a) (fun b2 hb2 => by
            obtain rfl := Option.some.inj hb2
            exact hacc a rfl) b hb

/-- Every candidate `cryptanalysisCrack` reports satisfies the formula
with its own carried `chiSquared` (the refined top entry reuses the
pre-refinement chi-squared, and always carries one). -/
theorem cryptanalysisCrack_candidates_formula (ciphertext : List Char)
    (maxKeyLength : ℕ) (dictionary : Dict) (targetRecognition : ℚ)
    (maxIterations : ℕ) (g : Rng) :
    ∀ c ∈ resultCandidates (cryptanalysisCrack ciphertext maxKeyLength
        dictionary targetRecognition maxIterations g),
      c.compositeScore
        = c.wordStats.percentage * 0.7 + c.wordStats.weightedScore * 15
            - c.chiSquared.getD 0 * 0.2 := by
  intro c hc
  unfold cryptanalysisCrack at hc
  simp only [] at hc
  split at hc
  · simp [resultCandidates] at hc
  · cases hpb : pickBest ciphertext dictionary
        (likelyKeyLengths ciphertext maxKeyLength) with
    | none =>
      rw [hpb] at hc
      simp [resultCandidates] at hc
    | some bestResult =>
      rw [hpb] at hc
      simp only [resultCandidates] at hc
      have hbest : bestResult.compositeScore
          = bestResult.wordStats.percentage * 0.7
              + bestResult.wordStats.weightedScore * 15
              - bestResult.chiSquared * 0.2 :=
        pickBest_formula ciphertext dictionary
          (likelyKeyLengths ciphertext maxKeyLength) none
          (fun b hb => by simp at hb) bestResult hpb
      split at hc
      · rw [List.mem_cons] at hc
        rcases hc with rfl | hc
        · rfl
        · rw [List.mem_singleton] at hc
          subst hc
          simpa using hbest
      · rw [List.mem_singleton] at hc
        subst hc
        rfl

/-- Embedding: `findBestShifts` returns `min numOptions 26` shifts. -/
theorem findBestShifts_length (sequence : List Char) (numOptions : ℕ) :
    (findBestShifts sequence numOptions).length = min numOptions 26 := by
  unfold findBestShifts
  simp only [List.length_map, List.length_take, length_stableSort,
    List.length_range]

/-- Embedding: `findBestShifts` never returns an empty list (for `numOptions ≥ 1`),
even on the empty subsequence. -/
theorem findBestShifts_ne_nil (sequence : List Char) (numOptions : ℕ)
    (h : 1 ≤ numOptions) : findBestShifts sequence numOptions ≠ [] := by
  intro hnil
  have := findBestShifts_length sequence numOptions
  rw [hnil] at this
  simp at this
  omega

/-- Embedding: `getSequences` returns exactly `keyLength` subsequences. -/
theorem getSequences_length (text : List Char) (keyLength : ℕ) :
    (getSequences text keyLength).length = keyLength := by
  unfold getSequences
  simp

/-- One expansion step of `generateKeys` keeps the combination list
nonempty when the new position has at least one option. -/
theorem generateKeys_step_ne_nil (combos : List (List ℕ)) (opts : List ℕ)
    (hc : combos ≠ []) (ho : opts ≠ []) :
    (let newCombinations :=
      combos.flatMap (fun combo => opts.map (fun shift => combo ++ [shift]))
     if 5000 < newCombinations.length then newCombinations.take 5000
     else newCombinations) ≠ [] := by
  simp only []
  have hflat : combos.flatMap
      (fun combo => opts.map (fun shift => combo ++ [shift])) ≠ [] := by
    cases combos with
    | nil => exact absurd rfl hc
    | cons a t =>
      rw [List.flatMap_cons]
      exact List.append_ne_nil_of_left_ne_nil
        (by simpa using ho) _
  split
  · rename_i h5000
    rw [Ne, List.take_eq_nil_iff]
    rintro (h | h)
    · omega
    · exact hflat h
  · exact hflat

/-- The expansion fold of `generateKeys` preserves nonemptiness. -/
theorem generateKeys_foldl_ne_nil (rest : List (List ℕ)) :
    ∀ acc : List (List ℕ), acc ≠ [] → (∀ o ∈ rest, o ≠ []) →
    (rest.foldl (fun combos opts =>
      let newCombinations :=
        combos.flatMap (fun combo => opts.map (fun shift => combo ++ [shift]))
      if 5000 < newCombinations.length then newCombinations.take 5000
      else newCombinations) acc) ≠ [] := by
  induction rest with
  | nil => intro acc hacc _; exact hacc
  | cons o t ih =>
    intro acc hacc hall
    rw [List.foldl_cons]
    exact ih _ (generateKeys_step_ne_nil acc o hacc (hall o (by simp)))
      (fun o2 ho2 => hall o2 (by simp [ho2]))

/-- Embedding: `generateKeys` returns at least one key when there is at least one
position and every position has at least one shift option. -/
theorem generateKeys_ne_nil (shiftOptions : List (List ℕ))
    (hne : shiftOptions ≠ []) (hall : ∀ o ∈ shiftOptions, o ≠ []) :
    generateKeys shiftOptions ≠ [] := by
  cases shiftOptions with
  | nil => exact absurd rfl hne
  | cons first rest =>
    unfold generateKeys
    simp only [Ne, List.map_eq_nil_iff]
    apply generateKeys_foldl_ne_nil
    · simp only [Ne, List.map_eq_nil_iff]
      exact hall first (by simp)
    · exact fun o ho => hall o (by simp [ho])

/-- Each per-length candidate list is nonempty for key length ≥ 1. -/
theorem keyResultsFor_ne_nil (ciphertext : List Char) (dictionary : Dict)
    (keyLength : ℕ) (h : 1 ≤ keyLength) :
    keyResultsFor ciphertext dictionary keyLength ≠ [] := by
  unfold keyResultsFor
  simp only [Ne]
  intro hnil
  have hlen := congrArg List.length hnil
  rw [length_stableSort, List.length_map] at hlen
  simp only [List.length_nil] at hlen
  have hgen : generateKeys
      ((getSequences ciphertext keyLength).map
        (fun seq => findBestShifts seq 3)) ≠ [] := by
    apply generateKeys_ne_nil
    · simp only [Ne, List.map_eq_nil_iff]
      intro hseq
      have := getSequences_length ciphertext keyLength
      rw [hseq] at this
      simp at this
      omega
    · intro o ho
      obtain ⟨seq, _, rfl⟩ := List.mem_map.mp ho
      exact findBestShifts_ne_nil seq 3 (by omega)
  exact hgen (List.length_eq_zero.mp hlen)

/-- The `bestResult` fold yields `some` as soon as the accumulator is
`some`. -/
theorem pickBest_foldl_some (ciphertext : List Char) (dictionary : Dict) :
    ∀ (lengths : List ℕ) (acc : Option RatedKey), (∃ b, acc = some b) →
      ∃ b, lengths.foldl (fun bestResult keyLength =>
          match keyResultsFor ciphertext dictionary keyLength with
          | [] => bestResult
          | bestKeyForLength :: _ =>
            match bestResult with
            | none => some bestKeyForLength
            | some b =>
              if b.compositeScore < bestKeyForLength.compositeScore then
                some bestKeyForLength
              else some b) acc = some b := by
  intro lengths
  induction lengths with
  | nil => intro acc h; simpa using h
  | cons keyLength rest ih =>
    intro acc h
    obtain ⟨b0, rfl⟩ := h
    rw [List.foldl_cons]
    cases hkr : keyResultsFor ciphertext dictionary keyLength with
    | nil =>
      exact ih _ ⟨b0, rfl⟩
    | cons bk tail =>
      simp only []
      split
      · exact ih _ ⟨bk, rfl⟩
      · exact ih _ ⟨b0, rfl⟩

/-- Embedding: `pickBest` finds a candidate whenever some tried key length is ≥ 1
(in particular whenever all of them are). -/
theorem pickBest_some (ciphertext : List Char) (dictionary : Dict)
    (lengths : List ℕ) (hne : lengths ≠ [])
    (hall : ∀ L ∈ lengths, 1 ≤ L) :
    ∃ b, pickBest ciphertext dictionary lengths = some b := by
  cases lengths with
  | nil => exact absurd rfl hne
  | cons keyLength rest =>
    unfold pickBest
    rw [List.foldl_cons]
    cases hkr : keyResultsFor ciphertext dictionary keyLength with
    | nil =>
      exact absurd hkr
        (keyResultsFor_ne_nil ciphertext dictionary keyLength
          (hall keyLength (by simp)))
    | cons bk tail =>
      exact pickBest_foldl_some ciphertext dictionary rest _ ⟨bk, rfl⟩

/-- The likely key lengths: nonempty and all ≥ 1 when `maxKeyLength ≥ 1`. -/
theorem likelyKeyLengths_spec (ciphertext : List Char) (maxKeyLength : ℕ)
    (h : 1 ≤ maxKeyLength) :
    likelyKeyLengths ciphertext maxKeyLength ≠ [] ∧
      ∀ L ∈ likelyKeyLengths ciphertext maxKeyLength, 1 ≤ L := by
  constructor
  · intro hnil
    have hlen := congrArg List.length hnil
    unfold likelyKeyLengths at hlen
    simp only [List.length_map, List.length_take, length_stableSort,
      List.length_range', List.length_nil] at hlen
    omega
  · intro L hL
    unfold likelyKeyLengths at hL
    obtain ⟨p, hp, rfl⟩ := List.mem_map.mp hL
    have hp2 := List.take_subset 3 _ hp
    rw [mem_stableSort] at hp2
    obtain ⟨L0, hL0, rfl⟩ := List.mem_map.mp hp2
    simp only [List.mem_range'] at hL0
    obtain ⟨i, _, rfl⟩ := hL0
    simp only []
    omega

/-- Under the cryptanalysis preconditions the result is `ok` with a
nonempty candidate list. -/
theorem cryptanalysisCrack_ok_ne_nil (ciphertext : List Char)
    (maxKeyLength : ℕ) (dictionary : Dict) (targetRecognition : ℚ)
    (maxIterations : ℕ) (g : Rng)
    (h20 : 20 ≤ (cleanUpper ciphertext).length) (hkl : 1 ≤ maxKeyLength) :
    ∃ r, cryptanalysisCrack ciphertext maxKeyLength dictionary
        targetRecognition maxIterations g = Except.ok r ∧
      r.topResults ≠ [] := by
  obtain ⟨hne, hall⟩ := likelyKeyLengths_spec ciphertext maxKeyLength hkl
  obtain ⟨b, hb⟩ := pickBest_some ciphertext dictionary
    (likelyKeyLengths ciphertext maxKeyLength) hne hall
  unfold cryptanalysisCrack
  rw [if_neg (by omega), hb]
  simp only []
  split
  · exact ⟨_, rfl, by simp⟩
  · exact ⟨_, rfl, by simp⟩

/-- Embedding: `resultCandidates` of a successful cryptanalysis is its (nonempty)
top-results list. -/
theorem resultCandidates_ne_nil (ciphertext : List Char)
    (maxKeyLength : ℕ) (dictionary : Dict) (targetRecognition : ℚ)
    (maxIterations : ℕ) (g : Rng)
    (h20 : 20 ≤ (cleanUpper ciphertext).length) (hkl : 1 ≤ maxKeyLength) :
    resultCandidates (cryptanalysisCrack ciphertext maxKeyLength dictionary
        targetRecognition maxIterations g) ≠ [] := by
  obtain ⟨r, hr, hne⟩ := cryptanalysisCrack_ok_ne_nil ciphertext maxKeyLength
    dictionary targetRecognition maxIterations g h20 hkl
  rw [hr]
  exact hne

/-- C9.  Under the cryptanalysis preconditions (cleaned ciphertext of at
least 20 letters and `maxKeyLength ≥ 1`) the "Could not find a viable
key" empty-result branch is unreachable: `findBestShifts` returns a
nonempty shift list for every subsequence (the empty one included),
`generateKeys` on nonempty per-position option lists returns at least
one key, so at least one rated candidate exists for every tried length
and cryptanalysis always returns at least one top result. -/
theorem claim_C9_no_empty_result (ciphertext sequence : List Char)
    (maxKeyLength : ℕ) (dictionary : Dict) (targetRecognition : ℚ)
    (maxIterations : ℕ) (g : Rng) (shiftOptions : List (List ℕ))
    (h20 : 20 ≤ (cleanUpper ciphertext).length) (hkl : 1 ≤ maxKeyLength)
    (hso : shiftOptions ≠ []) (hall : ∀ o ∈ shiftOptions, o ≠ []) :
    findBestShifts sequence 3 ≠ [] ∧
      generateKeys shiftOptions ≠ [] ∧
      ∃ r, cryptanalysisCrack ciphertext maxKeyLength dictionary
          targetRecognition maxIterations g = Except.ok r ∧
        r.topResults ≠ [] :=
  ⟨findBestShifts_ne_nil sequence 3 (by omega),
    generateKeys_ne_nil shiftOptions hso hall,
    cryptanalysisCrack_ok_ne_nil ciphertext maxKeyLength dictionary
      targetRecognition maxIterations g h20 hkl⟩

/-- Witness for C9: a 20-letter ciphertext, `maxKeyLength = 1`, the
empty subsequence, one option list. -/
theorem claim_C9_witness :
    findBestShifts [] 3 ≠ [] ∧
      generateKeys [[0]] ≠ [] ∧
      ∃ r, cryptanalysisCrack ("ABCDEFGHIJKLMNOPQRST".data) 1 [] 90 35
          ⟨fun _ => 0, 0⟩ = Except.ok r ∧
        r.topResults ≠ [] :=
  claim_C9_no_empty_result ("ABCDEFGHIJKLMNOPQRST".data) [] 1 [] 90 35
    ⟨fun _ => 0, 0⟩ [[0]] (by decide) (by decide) (by decide) (by decide)

/-- The brute-force top-5 has `min 5 |keys|` entries. -/
theorem bruteForceTop_length (ciphertext : List Char)
    (keys : List (List Char)) (dictionary : Dict) :
    (bruteForceTop ciphertext keys dictionary).length
      = min 5 keys.length := by
  unfold bruteForceTop
  rw [List.length_take, length_stableSort, List.length_map]

/-- With at least one known key, `bruteForceCrack` reports at least one
candidate. -/
theorem bruteForceCrack_topResults_ne_nil (ciphertext : List Char)
    (keys : List (List Char)) (dictionary : Dict) (targetRecognition : ℚ)
    (maxIterations : ℕ) (g : Rng) (hkeys : keys ≠ []) :
    (bruteForceCrack ciphertext keys dictionary targetRecognition
        maxIterations g).topResults ≠ [] := by
  have hlen : (bruteForceTop ciphertext keys dictionary).length ≠ 0 := by
    rw [bruteForceTop_length]
    have : keys.length ≠ 0 := fun h => hkeys (List.length_eq_zero.mp h)
    omega
  unfold bruteForceCrack
  simp only []
  split
  · rename_i heq
    exact absurd (congrArg List.length heq) (by simpa using hlen)
  · rename_i top tail heq
    split
    · split
      · simp
      · rw [heq]; simp
    · rw [heq]; simp

/-- C2 counterexample.  One concrete brute-force run that takes the
refinement branch: known key `"B"` on ciphertext `"it"` (dictionary
`{it: 1}`, target 50) is refined to `"A"`, and the prepended refined
candidate's `compositeScore` (70 + 15 = 85, no chi term) differs from
the claimed universal formula
`percentage × 0.7 + weightedScore × 15 − chiSquared × 0.2` evaluated on
its own decryption, whose chi-squared is nonzero — so not every scored
candidate carries the single fixed formula. -/
theorem claim_C2_counterexample :
    (bruteForceCrack ("it".data) [("B".data)] [("it".data, 1)] 50 5
        ⟨fun _ => 0, 0⟩).method = "brute-force-with-refinement" ∧
      ((bruteForceCrack ("it".data) [("B".data)] [("it".data, 1)] 50 5
          ⟨fun _ => 0, 0⟩).topResults.all (fun c =>
        c.compositeScore ==
          c.wordStats.percentage * 0.7 + c.wordStats.weightedScore * 15
            - calculateChiSquared (getFrequencies
                (decryptWithKey ("it".data) (some c.key))) * 0.2))
        = false := by
  with_unfolding_all decide

/-- C2 amended.  Every scored candidate of every strategy carries
`compositeScore = wordStats.percentage × 0.7 + wordStats.weightedScore
× 15 − chiSquared × 0.2` *with respect to the chi-squared value the
candidate itself carries, read as 0 when absent*: `rateKeyQuality` and
the brute-force base candidates store the chi-squared of their own
decryption; the refined candidate prepended by
brute-force-with-refinement stores none (its composite omits the chi
term); the refined cryptanalysis top result stores the pre-refinement
candidate's chi-squared. -/
theorem claim_C2_amended_composite_formula
    (key ciphertext ciphertext2 : List Char)
    (dictionary dictionary2 : Dict) (keys : List (List Char))
    (targetRecognition targetRecognition2 : ℚ)
    (maxIterations maxIterations2 maxKeyLength : ℕ) (g g2 : Rng)
    (c c2 : Candidate)
    (hc : c ∈ (bruteForceCrack ciphertext keys dictionary targetRecognition
        maxIterations g).topResults)
    (hc2 : c2 ∈ resultCandidates (cryptanalysisCrack ciphertext2
        maxKeyLength dictionary2 targetRecognition2 maxIterations2 g2)) :
    (rateKeyQuality key ciphertext dictionary).compositeScore
        = (rateKeyQuality key ciphertext dictionary).wordStats.percentage
              * 0.7
            + (rateKeyQuality key ciphertext
                dictionary).wordStats.weightedScore * 15
            - (rateKeyQuality key ciphertext dictionary).chiSquared * 0.2 ∧
      c.compositeScore
        = c.wordStats.percentage * 0.7 + c.wordStats.weightedScore * 15
            - c.chiSquared.getD 0 * 0.2 ∧
      c2.compositeScore
        = c2.wordStats.percentage * 0.7 + c2.wordStats.weightedScore * 15
            - c2.chiSquared.getD 0 * 0.2 :=
  ⟨rateKeyQuality_formula key ciphertext dictionary,
    bruteForceCrack_candidates_formula ciphertext keys dictionary
      targetRecognition maxIterations g c hc,
    cryptanalysisCrack_candidates_formula ciphertext2 maxKeyLength
      dictionary2 targetRecognition2 maxIterations2 g2 c2 hc2⟩

/-- Witness for C2 amended: the top brute-force candidate of a concrete
run, and the top cryptanalysis candidate of a concrete run. -/
theorem claim_C2_amended_witness :
    (rateKeyQuality ("A".data) ("it".data) [("it".data, 1)]).compositeScore
        = (rateKeyQuality ("A".data) ("it".data)
              [("it".data, 1)]).wordStats.percentage * 0.7
            + (rateKeyQuality ("A".data) ("it".data)
                [("it".data, 1)]).wordStats.weightedScore * 15
            - (rateKeyQuality ("A".data) ("it".data)
                [("it".data, 1)]).chiSquared * 0.2 ∧
      ((bruteForceCrack ("it".data) [("A".data)] [("it".data, 1)] 0 5
          ⟨fun _ => 0, 0⟩).topResults.head!).compositeScore
        = ((bruteForceCrack ("it".data) [("A".data)] [("it".data, 1)] 0 5
              ⟨fun _ => 0, 0⟩).topResults.head!).wordStats.percentage * 0.7
            + ((bruteForceCrack ("it".data) [("A".data)] [("it".data, 1)] 0 5
                ⟨fun _ => 0, 0⟩).topResults.head!).wordStats.weightedScore
              * 15
            - ((bruteForceCrack ("it".data) [("A".data)] [("it".data, 1)] 0 5
                ⟨fun _ => 0, 0⟩).topResults.head!).chiSquared.getD 0 * 0.2 ∧
      ((resultCandidates (cryptanalysisCrack ("ABCDEFGHIJKLMNOPQRST".data) 1
          [] 90 35 ⟨fun _ => 0, 0⟩)).head!).compositeScore
        = ((resultCandidates (cryptanalysisCrack ("ABCDEFGHIJKLMNOPQRST".data)
              1 [] 90 35 ⟨fun _ => 0, 0⟩)).head!).wordStats.percentage * 0.7
            + ((resultCandidates (cryptanalysisCrack
                ("ABCDEFGHIJKLMNOPQRST".data) 1 [] 90 35
                ⟨fun _ => 0, 0⟩)).head!).wordStats.weightedScore * 15
            - ((resultCandidates (cryptanalysisCrack
                ("ABCDEFGHIJKLMNOPQRST".data) 1 [] 90 35
                ⟨fun _ => 0, 0⟩)).head!).chiSquared.getD 0 * 0.2 :=
  claim_C2_amended_composite_formula ("A".data) ("it".data)
    ("ABCDEFGHIJKLMNOPQRST".data) [("it".data, 1)] [] [("A".data)] 0 90 5 35
    1 ⟨fun _ => 0, 0⟩ ⟨fun _ => 0, 0⟩ _ _
    (List.head!_mem_self (bruteForceCrack_topResults_ne_nil ("it".data)
      [("A".data)] [("it".data, 1)] 0 5 ⟨fun _ => 0, 0⟩ (by decide)))
    (List.head!_mem_self (resultCandidates_ne_nil
      ("ABCDEFGHIJKLMNOPQRST".data) 1 [] 90 35 ⟨fun _ => 0, 0⟩
      (by decide) (by decide)))

/-- C10.  `decryptWithKey` with a missing (`null`/`undefined`, modelled
`none`) or empty key returns the input text unchanged — the falsy-key
guard makes the core decrypt a total identity instead of an error. -/
theorem claim_C10_empty_key_identity (text : List Char) :
    decryptWithKey text none = text
      ∧ decryptWithKey text (some []) = text :=
  ⟨rfl, rfl⟩

/-- C3.  Cryptanalysis on a ciphertext whose cleaned form has fewer than
20 letters fails with the input-too-short error before any statistical
work, for every other parameter and random stream; it never returns a
result. -/
theorem claim_C3_short_input_rejected (ciphertext : List Char)
    (maxKeyLength : ℕ) (dictionary : Dict) (targetRecognition : ℚ)
    (maxIterations : ℕ) (g : Rng)
    (h : (cleanUpper ciphertext).length < 20) :
    cryptanalysisCrack ciphertext maxKeyLength dictionary targetRecognition
        maxIterations g
      = Except.error "Ciphertext too short for reliable analysis" := by
  unfold cryptanalysisCrack
  rw [if_pos h]

/-- Witness for C3: a 12-letter ciphertext is rejected. -/
theorem claim_C3_witness :
    cryptanalysisCrack ("LXFOPVEFRNHR".data) 10 [] 90 35 ⟨fun _ => 0, 0⟩
      = Except.error "Ciphertext too short for reliable analysis" :=
  claim_C3_short_input_rejected ("LXFOPVEFRNHR".data) 10 [] 90 35
    ⟨fun _ => 0, 0⟩ (by decide)

end Vigenere
